/-
Verification of the lwan hash table (src/lib/hash.c) against its
natural-language specification.

Shallow embedding conventions:
* C pointers (`const char *key`, `const void *value`) are modelled as `Nat`
  pointer values, with `0` standing for `NULL`.
* `unsigned int` arithmetic is modelled on `Nat` with explicit `% 2^32`
  where the C code can overflow; counters that provably stay far below
  `2^32` (entry counts bounded by capacities that are themselves
  overflow-checked) use plain `Nat` arithmetic.
* A bucket's entry array is modelled as the list of its `used` live
  entries (`used = entries.length`); the allocated capacity `total` is
  kept as a number.  Slots past `used` are never read by the C code
  before being written, so they carry no information.
* The key/value release callbacks (`free_key`/`free_value`) are modelled
  by an event trace: each operation returns the list of callback
  invocations it performed, in order.
* `reallocarray` success/failure is an environment choice; operations
  that may allocate take an explicit `allocOk`/`shrinkOk` boolean
  modelling whether the allocator call succeeds.
-/
import Mathlib

set_option maxRecDepth 10000

namespace LwanHash

def N_BUCKETS : Nat := 512
def STEPS : Nat := 64
def DEFAULT_ODD_CONSTANT : Nat := 0x27d4eb2d

/-- `2^32`; `unsigned int` values are below this bound. -/
def U32 : Nat := 4294967296

/-- `UINT_MAX`, the bound used by `__builtin_add_overflow` on `unsigned`. -/
def UINT_MAX : Nat := U32 - 1

/- errno values used by the code (Linux). -/
def ENOENT : Int := 2
def ENOMEM : Int := 12
def EEXIST : Int := 17
def EOVERFLOW : Int := 75

/-- `struct hash_entry`: key reference, value reference, cached hash. -/
structure hash_entry where
  key : Nat
  value : Nat
  hashval : Nat
deriving DecidableEq

/-- `struct hash_bucket`: live entries plus allocated capacity `total`. -/
structure hash_bucket where
  entries : List hash_entry
  total : Nat
deriving DecidableEq

/-- `bucket->used`: the number of live entries. -/
def hash_bucket.used (b : hash_bucket) : Nat := b.entries.length

/-- `struct hash`: entry counter, strategy function pointers, buckets.
The release callbacks are not stored; their invocations are reported as
an event trace by each operation. -/
structure hash where
  count : Nat
  hash_value : Nat → Nat
  key_compare : Nat → Nat → Int
  buckets : Nat → hash_bucket

/-- A callback invocation: `free_value(v)` or `free_key(k)`. -/
inductive event where
  | free_value (v : Nat)
  | free_key (k : Nat)
deriving DecidableEq

/-- `hash_internal_new` with `calloc`-zeroed buckets. -/
def hash_new (hv : Nat → Nat) (cmp : Nat → Nat → Int) : hash :=
  ⟨0, hv, cmp, fun _ => ⟨[], 0⟩⟩

/-- `hashval & (N_BUCKETS - 1)`: the bucket index of a hash value. -/
def bucketIdx (hashval : Nat) : Nat := hashval &&& (N_BUCKETS - 1)

def blank_entry : hash_entry := ⟨0, 0, 0⟩

/-- The scan loop shared by `hash_add_entry` and `hash_find_entry`:
index of the first entry whose cached hash equals `hashval` and whose
key compares equal to `key` (`continue` on hash mismatch, return on
compare hit). -/
def findIndex (cmp : Nat → Nat → Int) (key hashval : Nat) :
    List hash_entry → Option Nat
  | [] => none
  | e :: es =>
    if hashval ≠ e.hashval then (findIndex cmp key hashval es).map (· + 1)
    else if cmp key e.key = 0 then some 0
    else (findIndex cmp key hashval es).map (· + 1)

/-- Replace bucket `i` by `b`, keeping all others. -/
def updateBucket (f : Nat → hash_bucket) (i : Nat) (b : hash_bucket) :
    Nat → hash_bucket :=
  fun j => if j = i then b else f j

/-- Store `key`/`value` into slot `j`, keeping the cached hash. -/
def setKV (es : List hash_entry) (j key value : Nat) : List hash_entry :=
  es.set j ⟨key, value, (es.getD j blank_entry).hashval⟩

/-- The scan-and-append phase of `hash_add_entry` (after any growth):
scan bucket `pos` for the key; on a miss append a blank entry
(`key = value = NULL`, cached hash set), bumping `used` and `count`.
Returns the state and the bucket index and slot of the returned entry. -/
def hash_add_entry_post (h : hash) (key hashval pos : Nat) :
    hash × Nat × Nat :=
  let entries := (h.buckets pos).entries
  match findIndex h.key_compare key hashval entries with
  | some j => (h, pos, j)
  | none =>
    (⟨h.count + 1, h.hash_value, h.key_compare,
      updateBucket h.buckets pos
        ⟨entries ++ [⟨0, 0, hashval⟩], (h.buckets pos).total⟩⟩,
      pos, entries.length)

/-- `hash_add_entry`: grow the target bucket if needed (overflow-checked
with `__builtin_add_overflow`, failing without mutation), then scan and
possibly append via `hash_add_entry_post`.  `allocOk` models whether the
`reallocarray` growth call succeeds. -/
def hash_add_entry (h : hash) (key : Nat) (allocOk : Bool) :
    Except Int (hash × Nat × Nat) :=
  let hashval := h.hash_value key % U32
  let pos := bucketIdx hashval
  let bucket := h.buckets pos
  if bucket.used + 1 ≥ bucket.total then
    if bucket.total + STEPS > UINT_MAX then .error (-EOVERFLOW)
    else if allocOk then
      .ok (hash_add_entry_post
        ⟨h.count, h.hash_value, h.key_compare,
          updateBucket h.buckets pos ⟨bucket.entries, bucket.total + STEPS⟩⟩
        key hashval pos)
    else .error (-ENOMEM)
  else .ok (hash_add_entry_post h key hashval pos)

/-- `hash_add`: add or replace.  Unconditionally releases the returned
entry's previous value then key (both `NULL` for a fresh slot) and
stores the new references.  Returns `(result, state, callback trace)`. -/
def hash_add (h : hash) (key value : Nat) (allocOk : Bool) :
    Int × hash × List event :=
  match hash_add_entry h key allocOk with
  | .error c => (c, h, [])
  | .ok (h', pos, j) =>
    let e := (h'.buckets pos).entries.getD j blank_entry
    (0,
     ⟨h'.count, h'.hash_value, h'.key_compare,
       updateBucket h'.buckets pos
         ⟨setKV (h'.buckets pos).entries j key value, (h'.buckets pos).total⟩⟩,
     [.free_value e.value, .free_key e.key])

/-- `hash_add_unique`: like `hash_add` but fails with `-EEXIST` when the
returned entry already holds a key or a value; never invokes callbacks. -/
def hash_add_unique (h : hash) (key value : Nat) (allocOk : Bool) :
    Int × hash × List event :=
  match hash_add_entry h key allocOk with
  | .error c => (c, h, [])
  | .ok (h', pos, j) =>
    let e := (h'.buckets pos).entries.getD j blank_entry
    if e.key ≠ 0 ∨ e.value ≠ 0 then (-EEXIST, h', [])
    else
      (0,
       ⟨h'.count, h'.hash_value, h'.key_compare,
         updateBucket h'.buckets pos
           ⟨setKV (h'.buckets pos).entries j key value,
            (h'.buckets pos).total⟩⟩,
       [])

/-- `hash_find_entry`: bucket index and slot of the first matching
entry, or `none`. -/
def hash_find_entry (h : hash) (key hashval : Nat) : Option (Nat × Nat) :=
  let pos := bucketIdx hashval
  (findIndex h.key_compare key hashval (h.buckets pos).entries).map
    (fun j => (pos, j))

/-- `hash_find`: the stored value reference, or `NULL` (0) if absent. -/
def hash_find (h : hash) (key : Nat) : Nat :=
  match hash_find_entry h key (h.hash_value key % U32) with
  | some (pos, j) => ((h.buckets pos).entries.getD j blank_entry).value
  | none => 0

/-- `(used / STEPS + 1) * STEPS`: the size `hash_del` shrinks to, i.e.
the least multiple of `STEPS` strictly greater than `used`. -/
def shrinkTarget (used : Nat) : Nat := (used / STEPS + 1) * STEPS

/-- `hash_del`: find the entry (or fail with `-ENOENT`), release its
value then key, compact the bucket by shifting later entries down,
decrement `used` and `count`, then opportunistically shrink the bucket
storage when `steps_used + 1 < steps_total`; a failed shrink allocation
(`shrinkOk = false`) is ignored. -/
def hash_del (h : hash) (key : Nat) (shrinkOk : Bool) :
    Int × hash × List event :=
  let hashval := h.hash_value key % U32
  let pos := bucketIdx hashval
  let bucket := h.buckets pos
  match hash_find_entry h key hashval with
  | none => (-ENOENT, h, [])
  | some (_, j) =>
    let e := bucket.entries.getD j blank_entry
    let entries' := bucket.entries.eraseIdx j
    let steps_used := entries'.length / STEPS
    let steps_total := bucket.total / STEPS
    let total' :=
      if steps_used + 1 < steps_total ∧ shrinkOk then (steps_used + 1) * STEPS
      else bucket.total
    (0,
     ⟨h.count - 1, h.hash_value, h.key_compare,
       updateBucket h.buckets pos ⟨entries', total'⟩⟩,
     [.free_value e.value, .free_key e.key])

/-- `hash_get_count`. -/
def hash_get_count (h : hash) : Nat := h.count

/-- `struct hash_iter`: current bucket, current slot (an `int`,
initialized to `-1`). -/
structure hash_iter where
  bucket : Nat
  entry : Int
deriving DecidableEq

/-- `hash_iter_init`. -/
def hash_iter_init : hash_iter := ⟨0, -1⟩

/-- The `for (iter->bucket++; ...)` scan: first index `≥ i` whose bucket
has a live entry, stopping at `N_BUCKETS`. -/
def scanBuckets (h : hash) (i : Nat) : Nat :=
  if _hlt : i < N_BUCKETS then
    if (h.buckets i).used > 0 then i else scanBuckets h (i + 1)
  else i
termination_by N_BUCKETS - i

/-- `hash_iter_next`: pre-increment the slot; if it reaches the current
bucket's `used` (under the C cast of the `int` slot to `unsigned`),
reset it and scan forward for the next non-empty bucket, reporting
exhaustion past the last one; otherwise emit the current entry. -/
def hash_iter_next (h : hash) (it : hash_iter) :
    Option (Nat × Nat) × hash_iter :=
  let b := h.buckets it.bucket
  let entry1 : Int := it.entry + 1
  if (entry1 % (U32 : Int)).toNat ≥ b.used then
    let nb := scanBuckets h (it.bucket + 1)
    if nb ≥ N_BUCKETS then (none, ⟨nb, 0⟩)
    else
      let e := (h.buckets nb).entries.getD 0 blank_entry
      (some (e.key, e.value), ⟨nb, 0⟩)
  else
    let e := b.entries.getD (entry1 % (U32 : Int)).toNat blank_entry
    (some (e.key, e.value), ⟨it.bucket, entry1⟩)

/-- Repeatedly call `hash_iter_next`, collecting the emitted pairs until
exhaustion (or until the fuel runs out). -/
def iter_collect (h : hash) (fuel : Nat) (it : hash_iter) :
    List (Nat × Nat) :=
  match fuel with
  | 0 => []
  | fuel + 1 =>
    match hash_iter_next h it with
    | (none, _) => []
    | (some p, it') => p :: iter_collect h fuel it'

/-! ### Operation sequences -/

/-- One mutating call against the table. -/
inductive op where
  | add (k v : Nat)
  | addu (k v : Nat)
  | del (k : Nat)
deriving DecidableEq

/-- Execute one operation (allocator succeeding), keeping the state. -/
def step (h : hash) : op → hash
  | .add k v => (hash_add h k v true).2.1
  | .addu k v => (hash_add_unique h k v true).2.1
  | .del k => (hash_del h k true).2.1

/-- Run a sequence of operations from a freshly constructed table. -/
def run (hv : Nat → Nat) (cmp : Nat → Nat → Int) (ops : List op) : hash :=
  ops.foldl step (hash_new hv cmp)

/-! ### Observations used by the claims -/

/-- All live entries, in bucket-then-slot order. -/
def allEntries (h : hash) : List hash_entry :=
  (List.range N_BUCKETS).flatMap fun i => (h.buckets i).entries

/-- All live (key, value) pairs, in bucket-then-slot order. -/
def allPairs (h : hash) : List (Nat × Nat) :=
  (allEntries h).map fun e => (e.key, e.value)

/-- All keys currently present. -/
def presentKeys (h : hash) : List Nat := (allEntries h).map (·.key)

/-- Sum of `used` over all buckets. -/
def sumUsed (h : hash) : Nat :=
  ((List.range N_BUCKETS).map fun i => (h.buckets i).used).sum

/-- Deduplicate a list of keys under an equality predicate: keep the
first representative of each class. -/
def dedupBy (eqb : Nat → Nat → Bool) : List Nat → List Nat
  | [] => []
  | k :: ks => k :: dedupBy eqb (ks.filter fun k2 => !(eqb k k2))
termination_by ks => ks.length
decreasing_by
  simpa using Nat.lt_succ_of_le (List.length_filter_le _ ks)

/-- The number of distinct keys of `ks` under `eqb`. -/
def distinctCount (eqb : Nat → Nat → Bool) (ks : List Nat) : Nat :=
  (dedupBy eqb ks).length

/-! ### The built-in integer strategy -/

/-! ### The hardware-accelerated string hash (`hash_str_crc32`)

A string is modelled as the list of its bytes up to but not including
the terminating NUL, so every byte of a valid string is non-zero.  The
`__builtin_ia32_crc32{qi,hi,si,di}` instructions compute the CRC-32C
(Castagnoli) accumulation of their 1/2/4/8-byte source operand into the
running checksum; the multi-byte forms are, by the instruction's
definition, the byte-wise accumulation of the operand's bytes in
little-endian (i.e. memory) order, which are exactly the bytes the code
`memcpy`s from the string.  We therefore model each builtin as a fold of
`crc32c_byte` over the corresponding bytes. -/

/-- The reflected CRC-32C polynomial. -/
def CRC32C_POLY : Nat := 0x82F63B78

/-- One bit round of the reflected CRC division. -/
def crc32c_round (crc : Nat) : Nat :=
  if crc % 2 = 1 then (crc / 2) ^^^ CRC32C_POLY else crc / 2

/-- `__builtin_ia32_crc32qi`: accumulate one byte. -/
def crc32c_byte (crc b : Nat) : Nat :=
  Nat.iterate crc32c_round 8 (crc ^^^ b % 256)

/-- Accumulate a byte sequence (the semantics of the `hi`/`si`/`di`
builtins on the copied bytes, and the "CRC32 fold" of the claim). -/
def crc32_fold (crc : Nat) (bs : List Nat) : Nat := bs.foldl crc32c_byte crc

/-- The `while (len >= sizeof(uint64_t))` loop (x86-64 path): consume
8-byte chunks. -/
def crc32_loop64 (h : Nat) (s : List Nat) : Nat × List Nat :=
  if 8 ≤ s.length then crc32_loop64 (crc32_fold h (s.take 8)) (s.drop 8)
  else (h, s)
termination_by s.length
decreasing_by simp; omega

/-- The `while (len >= sizeof(uint32_t))` loop: consume 4-byte chunks. -/
def crc32_loop32 (h : Nat) (s : List Nat) : Nat × List Nat :=
  if 4 ≤ s.length then crc32_loop32 (crc32_fold h (s.take 4)) (s.drop 4)
  else (h, s)
termination_by s.length
decreasing_by simp; omega

/-- The tail of `hash_str_crc32` on the at most 3 bytes left before the
NUL: `if (*key && *(key + 1))` consume two bytes, then unconditionally
accumulate the byte at the cursor — which is the terminating NUL itself
when no non-NUL byte remains there. -/
def hash_str_crc32_tail (h : Nat) (t : List Nat) : Nat :=
  if t.getD 0 0 ≠ 0 ∧ t.getD 1 0 ≠ 0 then
    crc32c_byte (crc32_fold h (t.take 2)) (t.getD 2 0)
  else
    crc32c_byte h (t.getD 0 0)

/-- `hash_str_crc32`: seed with the odd constant, fold 8-byte then
4-byte chunks of the string, then handle the remaining `strlen % 4`
bytes and the final unconditional byte. -/
def hash_str_crc32 (seed : Nat) (s : List Nat) : Nat :=
  let h0 := seed % U32
  let r64 := crc32_loop64 h0 s
  let r32 := crc32_loop32 r64.1 r64.2
  hash_str_crc32_tail r32.1 r32.2

/-- `(intptr_t)` reinterpretation of a 64-bit pointer value. -/
def intptr_of (k : Nat) : Int :=
  (k % 2 ^ 64 : Nat) - (if k % 2 ^ 64 < 2 ^ 63 then 0 else (2 ^ 64 : Int))

/-- `hash_int_key_cmp`: signed three-way comparison `(a > b) - (a < b)`. -/
def hash_int_key_cmp (k1 k2 : Nat) : Int :=
  (if intptr_of k1 > intptr_of k2 then (1 : Int) else 0) -
    (if intptr_of k1 < intptr_of k2 then (1 : Int) else 0)

/-- `hash_int_shift_mult` (Thomas Wang's 32-bit mix, keyed by the odd
constant), on the `unsigned int` truncation of the key. -/
def hash_int_shift_mult (seed : Nat) (keyptr : Nat) : Nat :=
  let key := keyptr % U32
  let c2 := seed % U32
  let key := (key ^^^ 61) ^^^ (key >>> 16)
  let key := (key + (key <<< 3)) % U32
  let key := key ^^^ (key >>> 4)
  let key := key * c2 % U32
  let key := key ^^^ (key >>> 15)
  key

/-! ### Basic lemmas -/

theorem bucketIdx_eq_mod (hv : Nat) : bucketIdx hv = hv % N_BUCKETS := by
  show hv &&& (N_BUCKETS - 1) = hv % N_BUCKETS
  have : N_BUCKETS = 2 ^ 9 := by norm_num [N_BUCKETS]
  rw [this]
  exact Nat.and_pow_two_sub_one_eq_mod hv 9

theorem bucketIdx_lt (hv : Nat) : bucketIdx hv < N_BUCKETS := by
  rw [bucketIdx_eq_mod]
  exact Nat.mod_lt _ (by norm_num [N_BUCKETS])

/-- `findIndex` misses iff no entry matches on cached hash and compare. -/
theorem findIndex_none_iff (cmp : Nat → Nat → Int) (key hashval : Nat)
    (es : List hash_entry) :
    findIndex cmp key hashval es = none ↔
      ∀ e ∈ es, ¬(hashval = e.hashval ∧ cmp key e.key = 0) := by
  induction es with
  | nil => simp [findIndex]
  | cons e es ih =>
    simp only [findIndex]
    by_cases h1 : hashval = e.hashval
    · by_cases h2 : cmp key e.key = 0
      · rw [if_neg (not_not_intro h1), if_pos h2]
        simp [h1, h2]
      · rw [if_neg (not_not_intro h1), if_neg h2, Option.map_eq_none', ih]
        simp only [List.mem_cons, forall_eq_or_imp]
        exact ⟨fun hall => ⟨fun hc => h2 hc.2, hall⟩, fun hh => hh.2⟩
    · rw [if_pos h1, Option.map_eq_none', ih]
      simp only [List.mem_cons, forall_eq_or_imp]
      exact ⟨fun hall => ⟨fun hc => h1 hc.1, hall⟩, fun hh => hh.2⟩

/-- What a `findIndex` hit means: a first match at index `j`. -/
theorem findIndex_some (cmp : Nat → Nat → Int) (key hashval : Nat)
    (es : List hash_entry) (j : Nat)
    (h : findIndex cmp key hashval es = some j) :
    ∃ hj : j < es.length,
      es[j].hashval = hashval ∧ cmp key es[j].key = 0 ∧
      ∀ i, (_ : i < es.length) → i < j →
        ¬(hashval = es[i].hashval ∧ cmp key es[i].key = 0) := by
  induction es generalizing j with
  | nil => simp [findIndex] at h
  | cons e es ih =>
    simp only [findIndex] at h
    by_cases h1 : hashval = e.hashval
    · rw [if_neg (not_not_intro h1)] at h
      by_cases h2 : cmp key e.key = 0
      · rw [if_pos h2] at h
        obtain rfl : 0 = j := Option.some.inj h
        exact ⟨by simp, by simpa using h1.symm, by simpa using h2,
          fun i hi hij => by omega⟩
      · rw [if_neg h2, Option.map_eq_some'] at h
        obtain ⟨j', hj', rfl⟩ := h
        obtain ⟨hlt, ha, hb, hc⟩ := ih j' hj'
        refine ⟨by simpa using hlt, by simpa using ha, by simpa using hb, ?_⟩
        intro i hi hij hcon
        cases i with
        | zero => exact h2 (by simpa using hcon.2)
        | succ i =>
          exact hc i (by simpa using hi) (by omega) (by simpa using hcon)
    · rw [if_pos h1, Option.map_eq_some'] at h
      obtain ⟨j', hj', rfl⟩ := h
      obtain ⟨hlt, ha, hb, hc⟩ := ih j' hj'
      refine ⟨by simpa using hlt, by simpa using ha, by simpa using hb, ?_⟩
      intro i hi hij hcon
      cases i with
      | zero => exact h1 (by simpa using hcon.1)
      | succ i =>
        exact hc i (by simpa using hi) (by omega) (by simpa using hcon)

/-- Converse: a first match at index `j` makes `findIndex` return `j`. -/
theorem findIndex_eq_some (cmp : Nat → Nat → Int) (key hashval : Nat)
    (es : List hash_entry) (j : Nat) (hj : j < es.length)
    (h1 : es[j].hashval = hashval) (h2 : cmp key es[j].key = 0)
    (h3 : ∀ i, (_ : i < es.length) → i < j →
      ¬(hashval = es[i].hashval ∧ cmp key es[i].key = 0)) :
    findIndex cmp key hashval es = some j := by
  induction es generalizing j with
  | nil => simp at hj
  | cons e es ih =>
    match j with
    | 0 =>
      simp only [List.getElem_cons_zero] at h1 h2
      simp [findIndex, h1, h2]
    | j + 1 =>
      have h0 := h3 0 (by simp) (by omega)
      simp only [List.getElem_cons_zero] at h0
      have hrec := ih j (by simpa using hj) (by simpa using h1)
        (by simpa using h2)
        (fun i hi hij => by simpa using h3 (i + 1) (by simpa using hi) (by omega))
      simp only [findIndex]
      by_cases he : hashval = e.hashval
      · have hne : ¬cmp key e.key = 0 := fun hc => h0 ⟨he, hc⟩
        rw [if_neg (not_not_intro he), if_neg hne, hrec]
        rfl
      · rw [if_pos he, hrec]
        rfl

/-- Pointwise update of a function changes a range sum only at `pos`. -/
theorem sum_map_range_update (f g : Nat → Nat) (n pos : Nat) (hpos : pos < n)
    (hne : ∀ i, i ≠ pos → g i = f i) :
    ((List.range n).map g).sum + f pos = ((List.range n).map f).sum + g pos := by
  induction n with
  | zero => omega
  | succ n ih =>
    rw [List.range_succ, List.map_append, List.map_append,
      List.sum_append, List.sum_append]
    by_cases hp : pos = n
    · subst hp
      have : (List.range pos).map g = (List.range pos).map f := by
        refine List.map_congr_left fun i hi => ?_
        exact hne i (by simp at hi; omega)
      simp [this]
      omega
    · have := ih (by omega)
      have hgn : g n = f n := hne n (by omega)
      simp [hgn]
      omega

/-- Deduplication keeps a pairwise-distinct list intact. -/
theorem dedupBy_eq_self (eqb : Nat → Nat → Bool) (ks : List Nat)
    (h : ks.Pairwise fun a b => eqb a b = false) :
    dedupBy eqb ks = ks := by
  induction ks with
  | nil => rw [dedupBy]
  | cons k ks ih =>
    rw [dedupBy]
    rw [List.pairwise_cons] at h
    have : ks.filter (fun k2 => !(eqb k k2)) = ks :=
      List.filter_eq_self.mpr fun k2 hk2 => by simp [h.1 k2 hk2]
    rw [this, ih h.2]

/-- `shrinkTarget u` is strictly greater than `u`. -/
theorem lt_shrinkTarget (u : Nat) : u < shrinkTarget u := by
  simp only [shrinkTarget, STEPS]
  omega

/-- `shrinkTarget u` is a multiple of `STEPS`. -/
theorem shrinkTarget_dvd (u : Nat) : STEPS ∣ shrinkTarget u :=
  Dvd.intro_left _ rfl

/-- `shrinkTarget u` is the least multiple of `STEPS` strictly greater
than `u` ("`used` rounded up to the next `STEPS` multiple"). -/
theorem shrinkTarget_least (u m : Nat) (hd : STEPS ∣ m) (hm : u < m) :
    shrinkTarget u ≤ m := by
  obtain ⟨q, rfl⟩ := hd
  simp only [shrinkTarget, STEPS] at *
  omega

/-! ### Shape lemmas for the operations -/

/-- The bucket index targeted by an operation on `key`. -/
def bucketOf (h : hash) (key : Nat) : Nat := bucketIdx (h.hash_value key % U32)

/-- The live entries of the bucket targeted by `key`. -/
def entriesOf (h : hash) (key : Nat) : List hash_entry :=
  (h.buckets (bucketOf h key)).entries

/-- The result of the bucket scan for `key`. -/
def scanOf (h : hash) (key : Nat) : Option Nat :=
  findIndex h.key_compare key (h.hash_value key % U32) (entriesOf h key)

/-- Replace the bucket at `pos` and the entry counter, keeping the
strategy functions. -/
def withBucket (h : hash) (pos : Nat) (b : hash_bucket) (c : Nat) : hash :=
  ⟨c, h.hash_value, h.key_compare, updateBucket h.buckets pos b⟩

/-- The possible capacities of the targeted bucket after the growth
check of `hash_add_entry` succeeded. -/
def goodTotal (h : hash) (key : Nat) (T : Nat) : Prop :=
  (T = (h.buckets (bucketOf h key)).total ∧
     (h.buckets (bucketOf h key)).used + 1 < (h.buckets (bucketOf h key)).total) ∨
  (T = (h.buckets (bucketOf h key)).total + STEPS ∧ T ≤ UINT_MAX ∧
     (h.buckets (bucketOf h key)).total ≤ (h.buckets (bucketOf h key)).used + 1)

theorem bucketOf_def (h : hash) (key : Nat) :
    bucketIdx (h.hash_value key % U32) = bucketOf h key := rfl

theorem entriesOf_def (h : hash) (key : Nat) :
    (h.buckets (bucketOf h key)).entries = entriesOf h key := rfl

theorem updateBucket_same (f : Nat → hash_bucket) (pos : Nat)
    (b : hash_bucket) : updateBucket f pos b pos = b := by
  simp [updateBucket]

theorem updateBucket_other (f : Nat → hash_bucket) (pos i : Nat)
    (b : hash_bucket) (h : i ≠ pos) : updateBucket f pos b i = f i := by
  simp [updateBucket, h]

theorem updateBucket_updateBucket (f : Nat → hash_bucket) (pos : Nat)
    (b1 b2 : hash_bucket) :
    updateBucket (updateBucket f pos b1) pos b2 = updateBucket f pos b2 := by
  funext j
  by_cases hj : j = pos <;> simp [updateBucket, hj]

theorem updateBucket_self (f : Nat → hash_bucket) (pos : Nat) :
    updateBucket f pos (f pos) = f := by
  funext j
  by_cases hj : j = pos <;> simp [updateBucket, hj]

theorem withBucket_self (h : hash) (pos : Nat) :
    withBucket h pos (h.buckets pos) h.count = h := by
  show (⟨h.count, h.hash_value, h.key_compare,
    updateBucket h.buckets pos (h.buckets pos)⟩ : hash) = h
  rw [updateBucket_self]

theorem setKV_append_last (es : List hash_entry) (e : hash_entry)
    (k v : Nat) : setKV (es ++ [e]) es.length k v = es ++ [⟨k, v, e.hashval⟩] := by
  have hget : (es ++ [e]).getD es.length blank_entry = e := by
    simp [List.getD_append_right, Nat.le_refl]
  rw [setKV, hget, List.set_append]
  simp

/-- Case analysis of `hash_add_entry`: overflow failure, allocation
failure, or success with the scan outcome and the grown-or-kept
capacity. -/
theorem hash_add_entry_cases (h : hash) (key : Nat) (allocOk : Bool) :
    (hash_add_entry h key allocOk = .error (-EOVERFLOW) ∧
       (h.buckets (bucketOf h key)).total ≤ (h.buckets (bucketOf h key)).used + 1 ∧
       UINT_MAX < (h.buckets (bucketOf h key)).total + STEPS) ∨
    (hash_add_entry h key allocOk = .error (-ENOMEM) ∧ allocOk = false ∧
       (h.buckets (bucketOf h key)).total ≤ (h.buckets (bucketOf h key)).used + 1 ∧
       (h.buckets (bucketOf h key)).total + STEPS ≤ UINT_MAX) ∨
    (∃ T, goodTotal h key T ∧
      ((∃ j, scanOf h key = some j ∧
         hash_add_entry h key allocOk =
           .ok (withBucket h (bucketOf h key) ⟨entriesOf h key, T⟩ h.count,
                bucketOf h key, j)) ∨
       (scanOf h key = none ∧
         hash_add_entry h key allocOk =
           .ok (withBucket h (bucketOf h key)
                  ⟨entriesOf h key ++ [⟨0, 0, h.hash_value key % U32⟩], T⟩
                  (h.count + 1),
                bucketOf h key, (entriesOf h key).length)))) := by
  simp only [hash_add_entry, bucketOf_def]
  by_cases hgrow : (h.buckets (bucketOf h key)).used + 1 ≥
      (h.buckets (bucketOf h key)).total
  · rw [if_pos hgrow]
    by_cases hovf : (h.buckets (bucketOf h key)).total + STEPS > UINT_MAX
    · rw [if_pos hovf]
      exact Or.inl ⟨rfl, hgrow, hovf⟩
    · rw [if_neg hovf]
      cases allocOk with
      | false => exact Or.inr (Or.inl ⟨rfl, rfl, hgrow, by omega⟩)
      | true =>
        rw [if_pos rfl]
        refine Or.inr (Or.inr ⟨(h.buckets (bucketOf h key)).total + STEPS,
          Or.inr ⟨rfl, by omega, hgrow⟩, ?_⟩)
        rcases hscan : scanOf h key with _ | j
        · rw [scanOf] at hscan
          simp only [hash_add_entry_post, withBucket, updateBucket_same,
            updateBucket_updateBucket, entriesOf_def, hscan]
          refine Or.inr ⟨?_, ?_⟩ <;> trivial
        · rw [scanOf] at hscan
          simp only [hash_add_entry_post, withBucket, updateBucket_same,
            updateBucket_updateBucket, entriesOf_def, hscan]
          refine Or.inl ⟨j, ?_, ?_⟩ <;> trivial
  · rw [if_neg hgrow]
    refine Or.inr (Or.inr ⟨(h.buckets (bucketOf h key)).total,
      Or.inl ⟨rfl, by omega⟩, ?_⟩)
    rcases hscan : scanOf h key with _ | j
    · rw [scanOf] at hscan
      simp only [hash_add_entry_post, entriesOf_def, hscan]
      refine Or.inr ⟨?_, ?_⟩ <;> trivial
    · rw [scanOf] at hscan
      simp only [hash_add_entry_post, entriesOf_def, hscan]
      refine Or.inl ⟨j, rfl, ?_⟩
      rw [show (⟨entriesOf h key, (h.buckets (bucketOf h key)).total⟩ :
        hash_bucket) = h.buckets (bucketOf h key) from rfl, withBucket_self]

theorem hash_find_entry_eq_scanOf (h : hash) (key : Nat) :
    hash_find_entry h key (h.hash_value key % U32) =
      (scanOf h key).map fun j => (bucketOf h key, j) := rfl

/-- Case analysis of `hash_add`: growth failure (state untouched, no
callbacks), or replacement of the first matching entry (callbacks on the
displaced pair, value first), or append of a fresh entry (callbacks on
the blank `NULL` references). -/
theorem hash_add_cases (h : hash) (key v : Nat) (allocOk : Bool) :
    (hash_add h key v allocOk = (-EOVERFLOW, h, []) ∧
       (h.buckets (bucketOf h key)).total ≤ (h.buckets (bucketOf h key)).used + 1 ∧
       UINT_MAX < (h.buckets (bucketOf h key)).total + STEPS) ∨
    (hash_add h key v allocOk = (-ENOMEM, h, []) ∧ allocOk = false) ∨
    (∃ T, goodTotal h key T ∧
      ((∃ j, scanOf h key = some j ∧
          hash_add h key v allocOk =
            (0, withBucket h (bucketOf h key)
                  ⟨setKV (entriesOf h key) j key v, T⟩ h.count,
             [.free_value ((entriesOf h key).getD j blank_entry).value,
              .free_key ((entriesOf h key).getD j blank_entry).key])) ∨
       (scanOf h key = none ∧
          hash_add h key v allocOk =
            (0, withBucket h (bucketOf h key)
                  ⟨entriesOf h key ++ [⟨key, v, h.hash_value key % U32⟩], T⟩
                  (h.count + 1),
             [.free_value 0, .free_key 0])))) := by
  rcases hash_add_entry_cases h key allocOk with ⟨heq, hg, ho⟩ | ⟨heq, ha, _⟩ |
    ⟨T, hT, ⟨j, hscan, heq⟩ | ⟨hscan, heq⟩⟩
  · exact Or.inl ⟨by simp [hash_add, heq], hg, ho⟩
  · exact Or.inr (Or.inl ⟨by simp [hash_add, heq], ha⟩)
  · refine Or.inr (Or.inr ⟨T, hT, Or.inl ⟨j, hscan, ?_⟩⟩)
    simp only [hash_add, heq, withBucket, updateBucket_same,
      updateBucket_updateBucket]
  · refine Or.inr (Or.inr ⟨T, hT, Or.inr ⟨hscan, ?_⟩⟩)
    simp only [hash_add, heq, withBucket, updateBucket_same,
      updateBucket_updateBucket]
    rw [setKV_append_last]
    simp [List.getD_append_right, Nat.le_refl]

/-- Case analysis of `hash_add_unique`: growth failure, `-EEXIST` on a
hit whose entry holds a non-`NULL` key or value, silent overwrite of a
hit on the all-`NULL` entry, or append of a fresh entry.  No branch
invokes a callback. -/
theorem hash_add_unique_cases (h : hash) (key v : Nat) (allocOk : Bool) :
    (hash_add_unique h key v allocOk = (-EOVERFLOW, h, []) ∧
       (h.buckets (bucketOf h key)).total ≤ (h.buckets (bucketOf h key)).used + 1 ∧
       UINT_MAX < (h.buckets (bucketOf h key)).total + STEPS) ∨
    (hash_add_unique h key v allocOk = (-ENOMEM, h, []) ∧ allocOk = false) ∨
    (∃ T, goodTotal h key T ∧
      ((∃ j, scanOf h key = some j ∧
          (((entriesOf h key).getD j blank_entry).key ≠ 0 ∨
           ((entriesOf h key).getD j blank_entry).value ≠ 0) ∧
          hash_add_unique h key v allocOk =
            (-EEXIST, withBucket h (bucketOf h key) ⟨entriesOf h key, T⟩ h.count,
             [])) ∨
       (∃ j, scanOf h key = some j ∧
          ((entriesOf h key).getD j blank_entry).key = 0 ∧
          ((entriesOf h key).getD j blank_entry).value = 0 ∧
          hash_add_unique h key v allocOk =
            (0, withBucket h (bucketOf h key)
                  ⟨setKV (entriesOf h key) j key v, T⟩ h.count,
             [])) ∨
       (scanOf h key = none ∧
          hash_add_unique h key v allocOk =
            (0, withBucket h (bucketOf h key)
                  ⟨entriesOf h key ++ [⟨key, v, h.hash_value key % U32⟩], T⟩
                  (h.count + 1),
             [])))) := by
  rcases hash_add_entry_cases h key allocOk with ⟨heq, hg, ho⟩ | ⟨heq, ha, _⟩ |
    ⟨T, hT, ⟨j, hscan, heq⟩ | ⟨hscan, heq⟩⟩
  · exact Or.inl ⟨by simp [hash_add_unique, heq], hg, ho⟩
  · exact Or.inr (Or.inl ⟨by simp [hash_add_unique, heq], ha⟩)
  · by_cases hnz : ((entriesOf h key).getD j blank_entry).key ≠ 0 ∨
        ((entriesOf h key).getD j blank_entry).value ≠ 0
    · refine Or.inr (Or.inr ⟨T, hT, Or.inl ⟨j, hscan, hnz, ?_⟩⟩)
      simp only [hash_add_unique, heq, withBucket, updateBucket_same,
        updateBucket_updateBucket]
      rw [if_pos hnz]
    · push_neg at hnz
      refine Or.inr (Or.inr ⟨T, hT, Or.inr (Or.inl
        ⟨j, hscan, hnz.1, hnz.2, ?_⟩)⟩)
      simp only [hash_add_unique, heq, withBucket, updateBucket_same,
        updateBucket_updateBucket]
      rw [if_neg (by push_neg; exact hnz)]
  · refine Or.inr (Or.inr ⟨T, hT, Or.inr (Or.inr ⟨hscan, ?_⟩)⟩)
    simp only [hash_add_unique, heq, withBucket, updateBucket_same,
      updateBucket_updateBucket]
    rw [if_neg (by simp [List.getD_append_right, Nat.le_refl, blank_entry])]
    rw [setKV_append_last]

/-- Case analysis of `hash_del`: `-ENOENT` on a miss (state untouched),
or removal of the first matching entry with its callbacks (value first)
and the conditional best-effort shrink. -/
theorem hash_del_cases (h : hash) (key : Nat) (shrinkOk : Bool) :
    (hash_del h key shrinkOk = (-ENOENT, h, []) ∧ scanOf h key = none) ∨
    (∃ j, scanOf h key = some j ∧
       hash_del h key shrinkOk =
         (0, withBucket h (bucketOf h key)
               ⟨(entriesOf h key).eraseIdx j,
                if ((entriesOf h key).eraseIdx j).length / STEPS + 1 <
                     (h.buckets (bucketOf h key)).total / STEPS ∧ shrinkOk = true
                then shrinkTarget ((entriesOf h key).eraseIdx j).length
                else (h.buckets (bucketOf h key)).total⟩
               (h.count - 1),
          [.free_value ((entriesOf h key).getD j blank_entry).value,
           .free_key ((entriesOf h key).getD j blank_entry).key])) := by
  rcases hscan : scanOf h key with _ | j
  · refine Or.inl ⟨?_, rfl⟩
    simp only [hash_del, hash_find_entry_eq_scanOf, hscan, Option.map_none']
  · refine Or.inr ⟨j, rfl, ?_⟩
    simp only [hash_del, hash_find_entry_eq_scanOf, hscan, Option.map_some']
    rfl

/-! ### The table invariant -/

/-- Counter and capacity invariants that hold in every reachable state,
for any strategy. -/
structure Inv0 (h : hash) : Prop where
  count_eq : h.count = sumUsed h
  high : ∀ i, N_BUCKETS ≤ i → h.buckets i = ⟨[], 0⟩
  bound : ∀ i, (h.buckets i).used ≤ (h.buckets i).total ∧
    (h.buckets i).total ≤ UINT_MAX

theorem sumUsed_withBucket (h : hash) (pos : Nat) (b : hash_bucket) (c : Nat)
    (hpos : pos < N_BUCKETS) :
    sumUsed (withBucket h pos b c) + (h.buckets pos).used = sumUsed h + b.used := by
  have := sum_map_range_update (fun i => (h.buckets i).used)
    (fun i => ((withBucket h pos b c).buckets i).used) N_BUCKETS pos hpos
    (fun i hi => by simp [withBucket, updateBucket, hi])
  simpa [sumUsed, withBucket, updateBucket_same] using this

theorem used_le_sumUsed (h : hash) (pos : Nat) (hpos : pos < N_BUCKETS) :
    (h.buckets pos).used ≤ sumUsed h := by
  refine List.single_le_sum (fun x _ => Nat.zero_le x) _ ?_
  exact List.mem_map.mpr ⟨pos, List.mem_range.mpr hpos, rfl⟩

theorem bucketOf_lt (h : hash) (key : Nat) : bucketOf h key < N_BUCKETS :=
  bucketIdx_lt _

theorem Inv0_withBucket (h : hash) (key : Nat) (es' : List hash_entry)
    (T c : Nat) (h0 : Inv0 h)
    (hused : es'.length ≤ T) (hT : T ≤ UINT_MAX)
    (hc : c + (h.buckets (bucketOf h key)).used = h.count + es'.length) :
    Inv0 (withBucket h (bucketOf h key) ⟨es', T⟩ c) := by
  have hpos := bucketOf_lt h key
  refine ⟨?_, ?_, ?_⟩
  · have hsum := sumUsed_withBucket h (bucketOf h key) ⟨es', T⟩ c hpos
    have := h0.count_eq
    simp only [withBucket] at *
    simp only [hash_bucket.used] at *
    omega
  · intro i hi
    have : i ≠ bucketOf h key := by omega
    simp only [withBucket, updateBucket_other _ _ _ _ this]
    exact h0.high i hi
  · intro i
    by_cases hi : i = bucketOf h key
    · subst hi
      simp only [withBucket, updateBucket_same, hash_bucket.used]
      exact ⟨hused, hT⟩
    · simp only [withBucket, updateBucket_other _ _ _ _ hi]
      exact h0.bound i

/-- `goodTotal` capacities respect the bucket bound for any entry list
no longer than one more than the current `used`. -/
theorem goodTotal_bound (h : hash) (key : Nat) (T : Nat)
    (hg : goodTotal h key T) (h0 : Inv0 h) :
    (h.buckets (bucketOf h key)).used ≤ T ∧
    (h.buckets (bucketOf h key)).used + 1 ≤ T ∧ T ≤ UINT_MAX := by
  have hb := h0.bound (bucketOf h key)
  rcases hg with ⟨rfl, hlt⟩ | ⟨rfl, hle, _⟩
  · exact ⟨by omega, by omega, hb.2⟩
  · have : STEPS = 64 := rfl
    omega

theorem Inv0_hash_add (h : hash) (key v : Nat) (a : Bool) (h0 : Inv0 h) :
    Inv0 (hash_add h key v a).2.1 := by
  rcases hash_add_cases h key v a with ⟨heq, _⟩ | ⟨heq, _⟩ |
    ⟨T, hT, ⟨j, hscan, heq⟩ | ⟨hscan, heq⟩⟩ <;> rw [heq]
  · exact h0
  · exact h0
  · obtain ⟨hu, _, hmax⟩ := goodTotal_bound h key T hT h0
    refine Inv0_withBucket h key _ T h.count h0 ?_ hmax ?_
    · simpa [setKV] using hu
    · simp [setKV, hash_bucket.used, entriesOf]
  · obtain ⟨_, hu1, hmax⟩ := goodTotal_bound h key T hT h0
    refine Inv0_withBucket h key _ T (h.count + 1) h0 ?_ hmax ?_
    · simpa [entriesOf, hash_bucket.used] using hu1
    · simp [entriesOf, hash_bucket.used]
      omega

theorem Inv0_hash_add_unique (h : hash) (key v : Nat) (a : Bool)
    (h0 : Inv0 h) : Inv0 (hash_add_unique h key v a).2.1 := by
  rcases hash_add_unique_cases h key v a with ⟨heq, _⟩ | ⟨heq, _⟩ |
    ⟨T, hT, ⟨j, hscan, _, heq⟩ | ⟨j, hscan, _, _, heq⟩ | ⟨hscan, heq⟩⟩ <;> rw [heq]
  · exact h0
  · exact h0
  · obtain ⟨hu, _, hmax⟩ := goodTotal_bound h key T hT h0
    exact Inv0_withBucket h key _ T h.count h0 hu hmax (by simp [entriesOf, hash_bucket.used])
  · obtain ⟨hu, _, hmax⟩ := goodTotal_bound h key T hT h0
    refine Inv0_withBucket h key _ T h.count h0 ?_ hmax ?_
    · simpa [setKV] using hu
    · simp [setKV, hash_bucket.used, entriesOf]
  · obtain ⟨_, hu1, hmax⟩ := goodTotal_bound h key T hT h0
    refine Inv0_withBucket h key _ T (h.count + 1) h0 ?_ hmax ?_
    · simpa [entriesOf, hash_bucket.used] using hu1
    · simp [entriesOf, hash_bucket.used]
      omega

theorem scanOf_some_lt (h : hash) (key j : Nat)
    (hscan : scanOf h key = some j) : j < (entriesOf h key).length :=
  (findIndex_some _ _ _ _ _ hscan).1

theorem Inv0_hash_del (h : hash) (key : Nat) (s : Bool) (h0 : Inv0 h) :
    Inv0 (hash_del h key s).2.1 := by
  rcases hash_del_cases h key s with ⟨heq, _⟩ | ⟨j, hscan, heq⟩ <;> rw [heq]
  · exact h0
  · have hj := scanOf_some_lt h key j hscan
    have hlen : ((entriesOf h key).eraseIdx j).length =
        (entriesOf h key).length - 1 := by
      rw [List.length_eraseIdx]
      simp [hj]
    have hb := h0.bound (bucketOf h key)
    have hcnt : (h.buckets (bucketOf h key)).used ≤ h.count := by
      rw [h0.count_eq]
      exact used_le_sumUsed h _ (bucketOf_lt h key)
    have hused_def : (h.buckets (bucketOf h key)).used = (entriesOf h key).length := rfl
    refine Inv0_withBucket h key _ _ (h.count - 1) h0 ?_ ?_ ?_
    · split
      · rename_i hcond
        have := lt_shrinkTarget ((entriesOf h key).eraseIdx j).length
        omega
      · omega
    · split
      · rename_i hcond
        have hd : shrinkTarget ((entriesOf h key).eraseIdx j).length ≤
            (h.buckets (bucketOf h key)).total := by
          refine le_trans ?_ (Nat.div_mul_le_self (h.buckets (bucketOf h key)).total STEPS)
          rw [shrinkTarget]
          exact Nat.mul_le_mul_right STEPS (by omega)
        omega
      · exact hb.2
    · omega

/-- Soundness properties of a key-compare function: compare-equality is
symmetric and transitive (both built-in strategies satisfy them). -/
def CmpGood (cmp : Nat → Nat → Int) : Prop :=
  (∀ a b, cmp a b = 0 → cmp b a = 0) ∧
  (∀ a b c, cmp a b = 0 → cmp b c = 0 → cmp a c = 0)

/-- The pairwise no-duplicate relation maintained inside each bucket. -/
def entDistinct (cmp : Nat → Nat → Int) (e1 e2 : hash_entry) : Prop :=
  ¬(e1.hashval = e2.hashval ∧ cmp e1.key e2.key = 0)

/-- The full reachable-state invariant. -/
structure Inv (h : hash) : Prop where
  inv0 : Inv0 h
  ent_ok : ∀ i, ∀ e ∈ (h.buckets i).entries,
    e.hashval = h.hash_value e.key % U32 ∧ bucketIdx e.hashval = i
  uniq : ∀ i, (h.buckets i).entries.Pairwise (entDistinct h.key_compare)

theorem Inv_hash_new (hv : Nat → Nat) (cmp : Nat → Nat → Int) :
    Inv (hash_new hv cmp) := by
  refine ⟨⟨?_, fun i _ => rfl, fun i => by simp [hash_new, hash_bucket.used, UINT_MAX, U32]⟩,
    fun i e he => by simp [hash_new] at he, fun i => by simp [hash_new]⟩
  simp [hash_new, sumUsed, hash_bucket.used]

/-- Replacing the key of the first hit by the equal new key keeps the
bucket duplicate-free. -/
theorem pairwise_setKV (cmp : Nat → Nat → Int) (hg : CmpGood cmp)
    (es : List hash_entry) (j key v : Nat)
    (hp : es.Pairwise (entDistinct cmp))
    (hj : j < es.length) (hcmp : cmp key es[j].key = 0) :
    (setKV es j key v).Pairwise (entDistinct cmp) := by
  rw [List.pairwise_iff_getElem] at hp ⊢
  intro i1 i2 hi1 hi2 hlt
  have hlen : (setKV es j key v).length = es.length := by simp [setKV]
  have hi1' : i1 < es.length := by omega
  have hi2' : i2 < es.length := by omega
  have hget : ∀ (i : Nat) (hia : i < es.length)
      (hib : i < (setKV es j key v).length), i ≠ j →
      (setKV es j key v)[i] = es[i] := by
    intro i hia hib hne
    exact List.getElem_set_ne (fun hj => hne hj.symm) _
  have hgetj : ∀ (hjj : j < (setKV es j key v).length),
      (setKV es j key v)[j] = ⟨key, v, es[j].hashval⟩ := by
    intro hjj
    have hgd : es.getD j blank_entry = es[j] :=
      List.getD_eq_getElem es blank_entry hj
    simp only [setKV, hgd]
    exact List.getElem_set_self _
  by_cases h1 : i1 = j
  · subst h1
    rw [hgetj hi1, hget i2 hi2' hi2 (by omega)]
    intro hcon
    obtain ⟨hcA, hcB⟩ := hcon
    refine hp i1 i2 hi1' hi2' hlt ⟨hcA, ?_⟩
    exact hg.2 _ _ _ (hg.1 _ _ hcmp) hcB
  · by_cases h2 : i2 = j
    · subst h2
      rw [hgetj hi2, hget i1 hi1' hi1 h1]
      intro hcon
      obtain ⟨hcA, hcB⟩ := hcon
      refine hp i1 i2 hi1' hi2' hlt ⟨hcA, ?_⟩
      exact hg.2 _ _ _ hcB hcmp
    · rw [hget i1 hi1' hi1 h1, hget i2 hi2' hi2 h2]
      exact hp i1 i2 hi1' hi2' hlt

/-- Appending an entry that matched nothing keeps the bucket
duplicate-free. -/
theorem pairwise_snoc (cmp : Nat → Nat → Int) (hg : CmpGood cmp)
    (es : List hash_entry) (key v hashval : Nat)
    (hp : es.Pairwise (entDistinct cmp))
    (hnone : ∀ e ∈ es, ¬(hashval = e.hashval ∧ cmp key e.key = 0)) :
    (es ++ [(⟨key, v, hashval⟩ : hash_entry)]).Pairwise (entDistinct cmp) := by
  rw [List.pairwise_append]
  refine ⟨hp, by simp, ?_⟩
  intro e1 he1 e2 he2
  simp only [List.mem_singleton] at he2
  subst he2
  intro hcon
  obtain ⟨hcA, hcB⟩ := hcon
  exact hnone e1 he1 ⟨hcA.symm, hg.1 _ _ hcB⟩

theorem Inv_hash_add (h : hash) (key v : Nat) (a : Bool)
    (hg : CmpGood h.key_compare) (hI : Inv h) :
    Inv (hash_add h key v a).2.1 := by
  have h0 := Inv0_hash_add h key v a hI.inv0
  rcases hash_add_cases h key v a with ⟨heq, _⟩ | ⟨heq, _⟩ |
    ⟨T, hT, ⟨j, hscan, heq⟩ | ⟨hscan, heq⟩⟩ <;> rw [heq] at h0 ⊢
  · exact hI
  · exact hI
  · obtain ⟨hj, hhv, hcmp, _⟩ := findIndex_some _ _ _ _ _ hscan
    refine ⟨h0, ?_, ?_⟩
    · intro i e he
      by_cases hi : i = bucketOf h key
      · subst hi
        simp only [withBucket, updateBucket_same] at he
        rcases List.mem_or_eq_of_mem_set he with hmem | rfl
        · exact hI.ent_ok _ e hmem
        · refine ⟨?_, ?_⟩
          · show ((entriesOf h key).getD j blank_entry).hashval =
              h.hash_value key % U32
            rw [List.getD_eq_getElem _ _ hj, hhv]
          · show bucketIdx ((entriesOf h key).getD j blank_entry).hashval =
              bucketOf h key
            rw [List.getD_eq_getElem _ _ hj, hhv]
            exact bucketOf_def h key
      · simp only [withBucket, updateBucket_other _ _ _ _ hi] at he
        exact hI.ent_ok i e he
    · intro i
      by_cases hi : i = bucketOf h key
      · subst hi
        simp only [withBucket, updateBucket_same]
        exact pairwise_setKV _ hg _ j key v (hI.uniq _) hj hcmp
      · simp only [withBucket, updateBucket_other _ _ _ _ hi]
        exact hI.uniq i
  · refine ⟨h0, ?_, ?_⟩
    · intro i e he
      by_cases hi : i = bucketOf h key
      · subst hi
        simp only [withBucket, updateBucket_same] at he
        rcases List.mem_append.mp he with hmem | hmem
        · exact hI.ent_ok _ e hmem
        · simp only [List.mem_singleton] at hmem
          subst hmem
          exact ⟨rfl, rfl⟩
      · simp only [withBucket, updateBucket_other _ _ _ _ hi] at he
        exact hI.ent_ok i e he
    · intro i
      by_cases hi : i = bucketOf h key
      · subst hi
        simp only [withBucket, updateBucket_same]
        refine pairwise_snoc _ hg _ key v _ (hI.uniq _) ?_
        exact (findIndex_none_iff _ _ _ _).mp hscan
      · simp only [withBucket, updateBucket_other _ _ _ _ hi]
        exact hI.uniq i

theorem Inv_hash_add_unique (h : hash) (key v : Nat) (a : Bool)
    (hg : CmpGood h.key_compare) (hI : Inv h) :
    Inv (hash_add_unique h key v a).2.1 := by
  have h0 := Inv0_hash_add_unique h key v a hI.inv0
  rcases hash_add_unique_cases h key v a with ⟨heq, _⟩ | ⟨heq, _⟩ |
    ⟨T, hT, ⟨j, hscan, _, heq⟩ | ⟨j, hscan, _, _, heq⟩ | ⟨hscan, heq⟩⟩ <;>
    rw [heq] at h0 ⊢
  · exact hI
  · exact hI
  · refine ⟨h0, ?_, ?_⟩
    · intro i e he
      by_cases hi : i = bucketOf h key
      · subst hi
        simp only [withBucket, updateBucket_same] at he
        exact hI.ent_ok _ e he
      · simp only [withBucket, updateBucket_other _ _ _ _ hi] at he
        exact hI.ent_ok i e he
    · intro i
      by_cases hi : i = bucketOf h key
      · subst hi
        simp only [withBucket, updateBucket_same]
        exact hI.uniq _
      · simp only [withBucket, updateBucket_other _ _ _ _ hi]
        exact hI.uniq i
  · obtain ⟨hj, hhv, hcmp, _⟩ := findIndex_some _ _ _ _ _ hscan
    refine ⟨h0, ?_, ?_⟩
    · intro i e he
      by_cases hi : i = bucketOf h key
      · subst hi
        simp only [withBucket, updateBucket_same] at he
        rcases List.mem_or_eq_of_mem_set he with hmem | rfl
        · exact hI.ent_ok _ e hmem
        · refine ⟨?_, ?_⟩
          · show ((entriesOf h key).getD j blank_entry).hashval =
              h.hash_value key % U32
            rw [List.getD_eq_getElem _ _ hj, hhv]
          · show bucketIdx ((entriesOf h key).getD j blank_entry).hashval =
              bucketOf h key
            rw [List.getD_eq_getElem _ _ hj, hhv]
            exact bucketOf_def h key
      · simp only [withBucket, updateBucket_other _ _ _ _ hi] at he
        exact hI.ent_ok i e he
    · intro i
      by_cases hi : i = bucketOf h key
      · subst hi
        simp only [withBucket, updateBucket_same]
        exact pairwise_setKV _ hg _ j key v (hI.uniq _) hj hcmp
      · simp only [withBucket, updateBucket_other _ _ _ _ hi]
        exact hI.uniq i
  · refine ⟨h0, ?_, ?_⟩
    · intro i e he
      by_cases hi : i = bucketOf h key
      · subst hi
        simp only [withBucket, updateBucket_same] at he
        rcases List.mem_append.mp he with hmem | hmem
        · exact hI.ent_ok _ e hmem
        · simp only [List.mem_singleton] at hmem
          subst hmem
          exact ⟨rfl, rfl⟩
      · simp only [withBucket, updateBucket_other _ _ _ _ hi] at he
        exact hI.ent_ok i e he
    · intro i
      by_cases hi : i = bucketOf h key
      · subst hi
        simp only [withBucket, updateBucket_same]
        refine pairwise_snoc _ hg _ key v _ (hI.uniq _) ?_
        exact (findIndex_none_iff _ _ _ _).mp hscan
      · simp only [withBucket, updateBucket_other _ _ _ _ hi]
        exact hI.uniq i

theorem Inv_hash_del (h : hash) (key : Nat) (s : Bool) (hI : Inv h) :
    Inv (hash_del h key s).2.1 := by
  have h0 := Inv0_hash_del h key s hI.inv0
  rcases hash_del_cases h key s with ⟨heq, _⟩ | ⟨j, hscan, heq⟩ <;>
    rw [heq] at h0 ⊢
  · exact hI
  · refine ⟨h0, ?_, ?_⟩
    · intro i e he
      by_cases hi : i = bucketOf h key
      · subst hi
        simp only [withBucket, updateBucket_same] at he
        exact hI.ent_ok _ e (List.mem_of_mem_eraseIdx he)
      · simp only [withBucket, updateBucket_other _ _ _ _ hi] at he
        exact hI.ent_ok i e he
    · intro i
      by_cases hi : i = bucketOf h key
      · subst hi
        simp only [withBucket, updateBucket_same]
        exact (hI.uniq _).sublist (List.eraseIdx_sublist _ j)
      · simp only [withBucket, updateBucket_other _ _ _ _ hi]
        exact hI.uniq i

/-- `step` keeps the strategy functions. -/
theorem step_funs (h : hash) (o : op) :
    (step h o).hash_value = h.hash_value ∧
    (step h o).key_compare = h.key_compare := by
  cases o with
  | add k v =>
    rcases hash_add_cases h k v true with ⟨heq, _⟩ | ⟨heq, _⟩ |
      ⟨T, _, ⟨j, _, heq⟩ | ⟨_, heq⟩⟩ <;> simp [step, heq, withBucket]
  | addu k v =>
    rcases hash_add_unique_cases h k v true with ⟨heq, _⟩ | ⟨heq, _⟩ |
      ⟨T, _, ⟨j, _, _, heq⟩ | ⟨j, _, _, _, heq⟩ | ⟨_, heq⟩⟩ <;>
      simp [step, heq, withBucket]
  | del k =>
    rcases hash_del_cases h k true with ⟨heq, _⟩ | ⟨j, _, heq⟩ <;>
      simp [step, heq, withBucket]

theorem Inv_step (h : hash) (o : op) (hg : CmpGood h.key_compare)
    (hI : Inv h) : Inv (step h o) := by
  cases o with
  | add k v => exact Inv_hash_add h k v true hg hI
  | addu k v => exact Inv_hash_add_unique h k v true hg hI
  | del k => exact Inv_hash_del h k true hI

theorem run_funs (hv : Nat → Nat) (cmp : Nat → Nat → Int) (ops : List op) :
    (run hv cmp ops).hash_value = hv ∧ (run hv cmp ops).key_compare = cmp := by
  rw [run]
  induction ops using List.reverseRecOn with
  | nil => exact ⟨rfl, rfl⟩
  | append_singleton ops o ih =>
    rw [List.foldl_append, List.foldl_cons, List.foldl_nil]
    obtain ⟨h1, h2⟩ := step_funs (List.foldl step (hash_new hv cmp) ops) o
    rw [h1, h2]
    exact ih

theorem Inv_run (hv : Nat → Nat) (cmp : Nat → Nat → Int) (hg : CmpGood cmp)
    (ops : List op) : Inv (run hv cmp ops) := by
  rw [run]
  induction ops using List.reverseRecOn with
  | nil => exact Inv_hash_new hv cmp
  | append_singleton ops o ih =>
    rw [List.foldl_append, List.foldl_cons, List.foldl_nil]
    refine Inv_step _ o ?_ ih
    have := (run_funs hv cmp ops).2
    rw [run] at this
    rw [this]
    exact hg

/-! ### Lemmas on the string hash -/

theorem crc32_fold_append (h : Nat) (p q : List Nat) :
    crc32_fold h (p ++ q) = crc32_fold (crc32_fold h p) q := by
  simp [crc32_fold]

theorem crc32_loop64_spec (h : Nat) (s : List Nat) :
    ∃ p, s = p ++ (crc32_loop64 h s).2 ∧
      (crc32_loop64 h s).1 = crc32_fold h p ∧
      p.length % 4 = 0 ∧ (crc32_loop64 h s).2.length < 8 := by
  induction h, s using crc32_loop64.induct with
  | case1 h s hle ih =>
    rw [crc32_loop64, if_pos hle]
    obtain ⟨p, hsplit, hfold, hmod, hrem⟩ := ih
    refine ⟨s.take 8 ++ p, ?_, ?_, ?_, hrem⟩
    · conv_lhs => rw [← List.take_append_drop 8 s]
      rw [List.append_assoc, ← hsplit]
    · rw [crc32_fold_append, hfold]
    · rw [List.length_append, List.length_take]
      omega
  | case2 h s hle =>
    rw [crc32_loop64, if_neg hle]
    exact ⟨[], by simp, by simp [crc32_fold], by simp,
      (show s.length < 8 by omega)⟩

theorem crc32_loop32_spec (h : Nat) (s : List Nat) :
    ∃ p, s = p ++ (crc32_loop32 h s).2 ∧
      (crc32_loop32 h s).1 = crc32_fold h p ∧
      p.length % 4 = 0 ∧ (crc32_loop32 h s).2.length < 4 := by
  induction h, s using crc32_loop32.induct with
  | case1 h s hle ih =>
    rw [crc32_loop32, if_pos hle]
    obtain ⟨p, hsplit, hfold, hmod, hrem⟩ := ih
    refine ⟨s.take 4 ++ p, ?_, ?_, ?_, hrem⟩
    · conv_lhs => rw [← List.take_append_drop 4 s]
      rw [List.append_assoc, ← hsplit]
    · rw [crc32_fold_append, hfold]
    · rw [List.length_append, List.length_take]
      omega
  | case2 h s hle =>
    rw [crc32_loop32, if_neg hle]
    exact ⟨[], by simp, by simp [crc32_fold], by simp,
      (show s.length < 4 by omega)⟩

/-- The tail handling of `hash_str_crc32` on the `strlen % 4` bytes left
before the NUL: for 1 or 3 remaining bytes it folds exactly those bytes;
for 0 or 2 remaining bytes the final unconditional byte is the
terminating NUL, which is folded into the checksum as well. -/
theorem hash_str_crc32_tail_eq (h : Nat) (t : List Nat)
    (hlen : t.length < 4) (hnz : ∀ b ∈ t, b ≠ 0) :
    hash_str_crc32_tail h t =
      crc32_fold h
        (t ++ if t.length % 4 = 1 ∨ t.length % 4 = 3 then [] else [0]) := by
  match t, hlen with
  | [], _ =>
    simp [hash_str_crc32_tail, crc32_fold]
  | [b1], _ =>
    have h1 : b1 ≠ 0 := hnz b1 (by simp)
    simp [hash_str_crc32_tail, crc32_fold, h1]
  | [b1, b2], _ =>
    have h1 : b1 ≠ 0 := hnz b1 (by simp)
    have h2 : b2 ≠ 0 := hnz b2 (by simp)
    simp [hash_str_crc32_tail, crc32_fold, h1, h2]
  | [b1, b2, b3], _ =>
    have h1 : b1 ≠ 0 := hnz b1 (by simp)
    have h2 : b2 ≠ 0 := hnz b2 (by simp)
    simp [hash_str_crc32_tail, crc32_fold, h1, h2]

/-! ### The built-in integer strategy is sound -/

theorem intptr_of_inj (a b : Nat) :
    intptr_of a = intptr_of b ↔ a % 2 ^ 64 = b % 2 ^ 64 := by
  have ha : a % 2 ^ 64 < 2 ^ 64 := Nat.mod_lt _ (by norm_num)
  have hb : b % 2 ^ 64 < 2 ^ 64 := Nat.mod_lt _ (by norm_num)
  simp only [intptr_of]
  split_ifs <;> omega

theorem hash_int_key_cmp_eq_zero (a b : Nat) :
    hash_int_key_cmp a b = 0 ↔ intptr_of a = intptr_of b := by
  rw [hash_int_key_cmp]
  split_ifs <;> omega

theorem CmpGood_int : CmpGood hash_int_key_cmp := by
  constructor
  · intro a b h
    rw [hash_int_key_cmp_eq_zero] at *
    omega
  · intro a b c h1 h2
    rw [hash_int_key_cmp_eq_zero] at *
    omega

theorem hash_int_compat (seed a b : Nat) (h : hash_int_key_cmp a b = 0) :
    hash_int_shift_mult seed a = hash_int_shift_mult seed b := by
  rw [hash_int_key_cmp_eq_zero, intptr_of_inj] at h
  have h32 : (U32 : Nat) ∣ 2 ^ 64 := by norm_num [U32]
  have hU : a % U32 = b % U32 := by
    calc a % U32 = a % 2 ^ 64 % U32 := (Nat.mod_mod_of_dvd a h32).symm
    _ = b % 2 ^ 64 % U32 := by rw [h]
    _ = b % U32 := Nat.mod_mod_of_dvd b h32
  rw [hash_int_shift_mult, hash_int_shift_mult, hU]

/-- A table with the built-in integer strategy (at the default seed),
used to instantiate the generic theorems. -/
def intRun (ops : List op) : hash :=
  run (hash_int_shift_mult DEFAULT_ODD_CONSTANT) hash_int_key_cmp ops

/-! ### Claim C4 -/

/-- C4, counterexample: for the two-byte string "ab" (`strlen % 4 = 2`),
the accelerated hash does NOT equal the CRC32 fold of exactly the bytes
before the NUL — the final `crc32qi` consumes the terminating NUL. -/
theorem C4_counterexample :
    hash_str_crc32 DEFAULT_ODD_CONSTANT [97, 98] ≠
      crc32_fold DEFAULT_ODD_CONSTANT [97, 98] := by
  have h64 : crc32_loop64 (DEFAULT_ODD_CONSTANT % U32) [97, 98] =
      (DEFAULT_ODD_CONSTANT % U32, [97, 98]) := by
    rw [crc32_loop64]
    norm_num
  have h32 : crc32_loop32 (DEFAULT_ODD_CONSTANT % U32) [97, 98] =
      (DEFAULT_ODD_CONSTANT % U32, [97, 98]) := by
    rw [crc32_loop32]
    norm_num
  simp only [hash_str_crc32, h64, h32]
  decide

/-- C4 (amended): for every NUL-terminated string (non-zero bytes), the
hardware string hash equals the CRC32 fold, seeded with the odd
constant, of the bytes of `s` followed by one extra zero byte when
`strlen % 4` is 0 or 2; only when `strlen % 4` is 1 or 3 does it fold
exactly the bytes of `s`.  In particular the hash is a function of
exactly the byte content of `s`. -/
theorem C4_str_hash_nul_fold (seed : Nat) (s : List Nat)
    (hseed : seed < U32) (hnz : ∀ b ∈ s, b ≠ 0) :
    hash_str_crc32 seed s =
      crc32_fold seed
        (s ++ if s.length % 4 = 1 ∨ s.length % 4 = 3 then [] else [0]) := by
  obtain ⟨p1, hs1, hh1, hm1, hr1⟩ := crc32_loop64_spec (seed % U32) s
  set r1 := crc32_loop64 (seed % U32) s with hr1def
  obtain ⟨p2, hs2, hh2, hm2, hr2⟩ := crc32_loop32_spec r1.1 r1.2
  set r2 := crc32_loop32 r1.1 r1.2 with hr2def
  have hmod : seed % U32 = seed := Nat.mod_eq_of_lt hseed
  have htail : ∀ b ∈ r2.2, b ≠ 0 := by
    intro b hb
    apply hnz
    rw [hs1, hs2]
    exact List.mem_append.mpr (Or.inr (List.mem_append.mpr (Or.inr hb)))
  have hlen : r2.2.length % 4 = s.length % 4 := by
    have e1 : s.length = p1.length + r1.2.length := by rw [hs1]; simp
    have e2 : r1.2.length = p2.length + r2.2.length := by rw [hs2]; simp
    omega
  have hstep : hash_str_crc32 seed s = hash_str_crc32_tail r2.1 r2.2 := rfl
  rw [hstep, hash_str_crc32_tail_eq _ _ hr2 htail, hlen, hh2, hh1, hmod,
    ← crc32_fold_append, ← crc32_fold_append]
  congr 1
  rw [hs1, hs2]
  simp [List.append_assoc]

/-- C4 witness: the amended statement evaluated on "hi" (length 2: the
NUL is folded) at the default seed. -/
theorem C4_str_hash_nul_fold_witness :
    hash_str_crc32 DEFAULT_ODD_CONSTANT [104, 105] =
      crc32_fold DEFAULT_ODD_CONSTANT [104, 105, 0] := by
  have := C4_str_hash_nul_fold DEFAULT_ODD_CONSTANT [104, 105]
    (by norm_num [DEFAULT_ODD_CONSTANT, U32]) (by decide)
  simpa using this

theorem hash_find_entry_some (h : hash) (key pos j : Nat)
    (hfe : hash_find_entry h key (h.hash_value key % U32) = some (pos, j)) :
    pos = bucketOf h key ∧ scanOf h key = some j := by
  rw [hash_find_entry_eq_scanOf] at hfe
  rcases hsc : scanOf h key with _ | j'
  · rw [hsc] at hfe
    simp at hfe
  · rw [hsc] at hfe
    simp only [Option.map_some', Option.some.injEq, Prod.mk.injEq] at hfe
    exact ⟨hfe.1.symm, by rw [hfe.2]⟩

theorem hash_find_entry_none (h : hash) (key : Nat)
    (hfe : hash_find_entry h key (h.hash_value key % U32) = none) :
    scanOf h key = none := by
  rw [hash_find_entry_eq_scanOf] at hfe
  exact Option.map_eq_none'.mp hfe

/-! ### Claim C8 -/

/-- C8: when an add or add-unique call needs to grow the target bucket,
an overflow of the `unsigned` capacity counter fails the call with the
distinct `-EOVERFLOW` condition, and an allocation failure fails it with
`-ENOMEM`; in both cases the returned state is the untouched input state
(count, used, total, entries all unchanged) with no callbacks invoked. -/
theorem C8_growth_failure (h : hash) (key v : Nat) (allocOk : Bool)
    (hfull : (h.buckets (bucketOf h key)).total ≤
      (h.buckets (bucketOf h key)).used + 1) :
    ((-EOVERFLOW : Int) ≠ -ENOMEM) ∧
    (UINT_MAX < (h.buckets (bucketOf h key)).total + STEPS →
      hash_add h key v allocOk = (-EOVERFLOW, h, []) ∧
      hash_add_unique h key v allocOk = (-EOVERFLOW, h, [])) ∧
    ((h.buckets (bucketOf h key)).total + STEPS ≤ UINT_MAX → allocOk = false →
      hash_add h key v allocOk = (-ENOMEM, h, []) ∧
      hash_add_unique h key v allocOk = (-ENOMEM, h, [])) := by
  refine ⟨by norm_num [EOVERFLOW, ENOMEM], fun hovf => ?_, fun hno hfa => ?_⟩
  · have herr : hash_add_entry h key allocOk = .error (-EOVERFLOW) := by
      simp only [hash_add_entry, bucketOf_def]
      rw [if_pos hfull, if_pos hovf]
    exact ⟨by simp [hash_add, herr], by simp [hash_add_unique, herr]⟩
  · subst hfa
    have herr : hash_add_entry h key false = .error (-ENOMEM) := by
      simp only [hash_add_entry, bucketOf_def]
      rw [if_pos hfull, if_neg (by omega)]
      simp
    exact ⟨by simp [hash_add, herr], by simp [hash_add_unique, herr]⟩

/-- A bucket holding `2^32 - 65` entries at the capacity `2^32 - 64`:
the next growth step would overflow `unsigned`. -/
def c8_overflow_state : hash :=
  ⟨U32 - 65, fun _ => 0, fun _ _ => 0,
   fun _ => ⟨List.replicate (U32 - 65) blank_entry, U32 - 64⟩⟩

/-- A bucket at capacity 128 with 127 entries: the next add must grow. -/
def c8_full_state : hash :=
  ⟨127, fun _ => 0, fun _ _ => 0,
   fun _ => ⟨List.replicate 127 blank_entry, 128⟩⟩

/-- C8 witness: the overflow failure on a maximal-capacity bucket, and
the allocation failure on a growth that does not overflow. -/
theorem C8_growth_failure_witness :
    hash_add c8_overflow_state 1 2 true =
      (-EOVERFLOW, c8_overflow_state, []) ∧
    hash_add c8_full_state 1 2 false = (-ENOMEM, c8_full_state, []) := by
  have hu1 : (c8_overflow_state.buckets (bucketOf c8_overflow_state 1)).used =
      U32 - 65 := by
    show (List.replicate (U32 - 65) blank_entry).length = U32 - 65
    rw [List.length_replicate]
  have ht1 : (c8_overflow_state.buckets (bucketOf c8_overflow_state 1)).total =
      U32 - 64 := rfl
  have hu2 : (c8_full_state.buckets (bucketOf c8_full_state 1)).used = 127 := by
    show (List.replicate 127 blank_entry).length = 127
    rw [List.length_replicate]
  have ht2 : (c8_full_state.buckets (bucketOf c8_full_state 1)).total =
      128 := rfl
  constructor
  · refine ((C8_growth_failure c8_overflow_state 1 2 true ?_).2.1 ?_).1
    · rw [hu1, ht1]
      omega
    · rw [ht1]
      norm_num [UINT_MAX, U32, STEPS]
  · refine ((C8_growth_failure c8_full_state 1 2 false ?_).2.2 ?_ rfl).1
    · rw [hu2, ht2]
    · rw [ht2]
      norm_num [UINT_MAX, U32, STEPS]

/-! ### Claim C9 -/

/-- C9: a successful `hash_add` of a key with no matching entry invokes
the value-release and key-release callbacks exactly once each with the
`NULL` reference (the blank entry's fields), value first, before the new
key/value references are stored in the appended entry. -/
theorem C9_fresh_add_releases_null (h : hash) (key v : Nat) (allocOk : Bool)
    (habs : hash_find_entry h key (h.hash_value key % U32) = none)
    (hok : (hash_add h key v allocOk).1 = 0) :
    (hash_add h key v allocOk).2.2 = [.free_value 0, .free_key 0] ∧
    ((hash_add h key v allocOk).2.1.buckets (bucketOf h key)).entries =
      entriesOf h key ++ [⟨key, v, h.hash_value key % U32⟩] := by
  have hscan := hash_find_entry_none h key habs
  rcases hash_add_cases h key v allocOk with ⟨heq, _⟩ | ⟨heq, _⟩ |
    ⟨T, hT, ⟨j, hscan2, heq⟩ | ⟨_, heq⟩⟩
  · rw [heq] at hok
    norm_num [EOVERFLOW] at hok
  · rw [heq] at hok
    norm_num [ENOMEM] at hok
  · rw [hscan] at hscan2
    simp at hscan2
  · rw [heq]
    exact ⟨rfl, by simp [withBucket, updateBucket_same]⟩

/-- C9 witness: adding an absent key to a one-entry integer table
releases exactly the two `NULL` references. -/
theorem C9_fresh_add_releases_null_witness :
    (hash_add (intRun [.add 5 7]) 6 9 true).2.2 =
      [.free_value 0, .free_key 0] :=
  (C9_fresh_add_releases_null (intRun [.add 5 7]) 6 9 true (by decide)
    (by decide)).1

/-! ### Claim C10 -/

/-- C10: `hash_find` signals not-found by returning `NULL` (0), and it
returns the stored value reference on a hit — so a key stored with a
`NULL` value is indistinguishable from an absent key at the `hash_find`
interface: both return 0. -/
theorem C10_find_null_indistinguishable (h : hash) (key : Nat) :
    (hash_find_entry h key (h.hash_value key % U32) = none →
       hash_find h key = 0) ∧
    (∀ pos j, hash_find_entry h key (h.hash_value key % U32) = some (pos, j) →
       ((h.buckets pos).entries.getD j blank_entry).value = 0 →
       hash_find h key = 0) := by
  constructor
  · intro hnone
    simp [hash_find, hnone]
  · intro pos j hsome hval
    simp only [hash_find, hsome]
    exact hval

/-- C10 witness: a key stored with the `NULL` value and an absent key
both make `hash_find` return 0 on the same table. -/
theorem C10_find_null_indistinguishable_witness :
    hash_find (intRun [.add 5 0]) 5 = 0 ∧
    hash_find (intRun [.add 5 0]) 6 = 0 := by
  constructor
  · exact (C10_find_null_indistinguishable (intRun [.add 5 0]) 5).2
      (bucketOf (intRun [.add 5 0]) 5) 0 (by decide) (by decide)
  · exact (C10_find_null_indistinguishable (intRun [.add 5 0]) 6).1 (by decide)

/-! ### Claim C5 -/

theorem setKV_getD_self (es : List hash_entry) (j key v : Nat)
    (hj : j < es.length) :
    (setKV es j key v).getD j blank_entry =
      ⟨key, v, (es.getD j blank_entry).hashval⟩ := by
  have hj' : j < (setKV es j key v).length := by
    simp [setKV]
    omega
  rw [List.getD_eq_getElem _ _ hj']
  simp only [setKV]
  exact List.getElem_set_self _

/-- C5: a successful `hash_add` of a key whose first matching entry is
`(k_old, v_old)` invokes exactly the two callbacks
`free_value v_old` then `free_key k_old` (value before key, each once),
and afterwards that entry holds the new key and value references (with
the cached hash kept). -/
theorem C5_overwrite_releases_displaced (h : hash) (key v pos j : Nat)
    (allocOk : Bool)
    (hfind : hash_find_entry h key (h.hash_value key % U32) = some (pos, j))
    (hok : (hash_add h key v allocOk).1 = 0) :
    (hash_add h key v allocOk).2.2 =
      [.free_value ((h.buckets pos).entries.getD j blank_entry).value,
       .free_key ((h.buckets pos).entries.getD j blank_entry).key] ∧
    ((hash_add h key v allocOk).2.1.buckets pos).entries.getD j blank_entry =
      ⟨key, v, ((h.buckets pos).entries.getD j blank_entry).hashval⟩ ∧
    (hash_add h key v allocOk).2.1.count = h.count := by
  obtain ⟨hpos, hscan⟩ := hash_find_entry_some h key pos j hfind
  subst hpos
  rcases hash_add_cases h key v allocOk with ⟨heq, _⟩ | ⟨heq, _⟩ |
    ⟨T, hT, ⟨j', hscan2, heq⟩ | ⟨hscan2, heq⟩⟩
  · rw [heq] at hok
    norm_num [EOVERFLOW] at hok
  · rw [heq] at hok
    norm_num [ENOMEM] at hok
  · rw [hscan] at hscan2
    obtain rfl : j = j' := Option.some.inj hscan2
    have hj := scanOf_some_lt h key j hscan
    rw [heq]
    refine ⟨rfl, ?_, rfl⟩
    simp only [withBucket, updateBucket_same]
    exact setKV_getD_self _ j key v hj
  · rw [hscan] at hscan2
    simp at hscan2

/-- C5 witness: overwriting key 5 (value 7) with value 9 releases
exactly value 7 then key 5, and the entry then holds (5, 9). -/
theorem C5_overwrite_releases_displaced_witness :
    (hash_add (intRun [.add 5 7]) 5 9 true).2.2 =
      [.free_value 7, .free_key 5] ∧
    hash_find ((hash_add (intRun [.add 5 7]) 5 9 true).2.1) 5 = 9 := by
  have := C5_overwrite_releases_displaced (intRun [.add 5 7]) 5 9
    (bucketOf (intRun [.add 5 7]) 5) 0 true (by decide) (by decide)
  constructor
  · rw [this.1]
    decide
  · decide

/-! ### Claim C6 -/

/-- C6, counterexample: in an integer table holding key `NULL` (0) with
value `NULL` (0), the key is present (the scan finds its entry), yet
`hash_add_unique` of that key does not fail with `-EEXIST`: the
`entry->key || entry->value` test cannot distinguish that entry from a
freshly created slot, so the call succeeds and overwrites the entry. -/
theorem C6_counterexample :
    hash_find_entry (intRun [.add 0 0]) 0
        ((intRun [.add 0 0]).hash_value 0 % U32) ≠ none ∧
    (hash_add_unique (intRun [.add 0 0]) 0 99 true).1 = 0 ∧
    (hash_add_unique (intRun [.add 0 0]) 0 99 true).1 ≠ -EEXIST ∧
    hash_find ((hash_add_unique (intRun [.add 0 0]) 0 99 true).2.1) 0 = 99 := by
  refine ⟨?_, ?_, ?_, ?_⟩ <;> decide

/-- C6 (amended): for every key `k` present in the table whose entry
holds a non-`NULL` key or a non-`NULL` value reference (every entry
except the `NULL` key mapped to the `NULL` value), and whose bucket can
still grow without overflow, `hash_add_unique` fails with `-EEXIST`,
invokes no release callbacks, and leaves the count and every bucket's
entries unchanged (only the bucket capacity may have grown). -/
theorem C6_add_unique_exists (h : hash) (key v pos j : Nat)
    (hfind : hash_find_entry h key (h.hash_value key % U32) = some (pos, j))
    (hnz : ((h.buckets pos).entries.getD j blank_entry).key ≠ 0 ∨
           ((h.buckets pos).entries.getD j blank_entry).value ≠ 0)
    (hroom : (h.buckets pos).total + STEPS ≤ UINT_MAX) :
    (hash_add_unique h key v true).1 = -EEXIST ∧
    (hash_add_unique h key v true).2.2 = [] ∧
    (hash_add_unique h key v true).2.1.count = h.count ∧
    ∀ i, ((hash_add_unique h key v true).2.1.buckets i).entries =
      (h.buckets i).entries := by
  obtain ⟨hpos, hscan⟩ := hash_find_entry_some h key pos j hfind
  subst hpos
  rcases hash_add_unique_cases h key v true with ⟨heq, _, hovf⟩ |
    ⟨heq, hfa⟩ | ⟨T, hT, ⟨j', hscan2, hnz2, heq⟩ |
    ⟨j', hscan2, hz1, hz2, heq⟩ | ⟨hscan2, heq⟩⟩
  · omega
  · exact absurd hfa (by simp)
  · rw [heq]
    refine ⟨rfl, rfl, rfl, fun i => ?_⟩
    by_cases hi : i = bucketOf h key
    · subst hi
      simp only [withBucket, updateBucket_same]
      rfl
    · simp only [withBucket, updateBucket_other _ _ _ _ hi]
  · rw [hscan] at hscan2
    obtain rfl : j = j' := Option.some.inj hscan2
    rcases hnz with hnz | hnz
    · exact absurd hz1 hnz
    · exact absurd hz2 hnz
  · rw [hscan] at hscan2
    simp at hscan2

/-- C6 witness: `hash_add_unique` on the present key 5 (value 7) fails
with `-EEXIST`, fires no callback, and changes nothing. -/
theorem C6_add_unique_exists_witness :
    (hash_add_unique (intRun [.add 5 7]) 5 9 true).1 = -EEXIST ∧
    (hash_add_unique (intRun [.add 5 7]) 5 9 true).2.2 = [] ∧
    (hash_add_unique (intRun [.add 5 7]) 5 9 true).2.1.count =
      (intRun [.add 5 7]).count := by
  have := C6_add_unique_exists (intRun [.add 5 7]) 5 9
    (bucketOf (intRun [.add 5 7]) 5) 0 (by decide) (by decide) (by decide)
  exact ⟨this.1, this.2.1, this.2.2.1⟩

/-! ### Claim C7 -/

/-- The code's shrink condition, stated as the claim words it: the
`used` count rounded up to the next `STEPS` multiple fits below the
current capacity with one full step to spare. -/
theorem shrink_cond_iff (u total : Nat) (hdvd : STEPS ∣ total) :
    u / STEPS + 1 < total / STEPS ↔ shrinkTarget u + STEPS ≤ total := by
  obtain ⟨q, rfl⟩ := hdvd
  simp only [shrinkTarget, STEPS]
  omega

/-- C7: after a successful delete, if the remaining `used` rounded up to
the next `STEPS` multiple (`shrinkTarget`, see `shrinkTarget_least`) is
below the bucket capacity by at least a full step, the capacity is
shrunk to exactly that size (strictly smaller than before); otherwise it
is kept.  A delete whose shrink allocation fails (`shrinkOk = false`)
still succeeds and retains the old, larger capacity. -/
theorem C7_shrink_on_delete (h : hash) (key pos j : Nat)
    (hfind : hash_find_entry h key (h.hash_value key % U32) = some (pos, j))
    (hdvd : STEPS ∣ (h.buckets pos).total) :
    (hash_del h key true).1 = 0 ∧
    (shrinkTarget ((h.buckets pos).entries.eraseIdx j).length + STEPS ≤
        (h.buckets pos).total →
      ((hash_del h key true).2.1.buckets pos).total =
        shrinkTarget ((h.buckets pos).entries.eraseIdx j).length ∧
      ((hash_del h key true).2.1.buckets pos).total < (h.buckets pos).total) ∧
    ((h.buckets pos).total <
        shrinkTarget ((h.buckets pos).entries.eraseIdx j).length + STEPS →
      ((hash_del h key true).2.1.buckets pos).total = (h.buckets pos).total) ∧
    (hash_del h key false).1 = 0 ∧
    ((hash_del h key false).2.1.buckets pos).total = (h.buckets pos).total := by
  obtain ⟨hpos, hscan⟩ := hash_find_entry_some h key pos j hfind
  subst hpos
  rcases hash_del_cases h key true with ⟨_, hscan2⟩ | ⟨j', hscan2, heq⟩
  · rw [hscan] at hscan2
    simp at hscan2
  rw [hscan] at hscan2
  obtain rfl : j = j' := Option.some.inj hscan2
  rcases hash_del_cases h key false with ⟨_, hscan3⟩ | ⟨j', hscan3, heqf⟩
  · rw [hscan] at hscan3
    simp at hscan3
  rw [hscan] at hscan3
  obtain rfl : j = j' := Option.some.inj hscan3
  have hiff := shrink_cond_iff ((entriesOf h key).eraseIdx j).length
    (h.buckets (bucketOf h key)).total hdvd
  simp only [entriesOf_def]
  refine ⟨by rw [heq], fun hcond => ?_, fun hcond => ?_, by rw [heqf], ?_⟩
  · rw [heq]
    simp only [withBucket, updateBucket_same]
    rw [if_pos ⟨hiff.mpr hcond, by trivial⟩]
    have : STEPS = 64 := rfl
    exact ⟨rfl, by omega⟩
  · rw [heq]
    simp only [withBucket, updateBucket_same]
    rw [if_neg]
    intro hcon
    exact absurd (hiff.mp hcon.1) (by omega)
  · rw [heqf]
    simp only [withBucket, updateBucket_same]
    rw [if_neg]
    intro hcon
    exact absurd hcon.2 (by simp)

/-- C7 witness: deleting the only entry of a bucket with capacity 128
shrinks it to 64; with a failing shrink allocation the delete still
succeeds and the capacity stays 128. -/
def c7_state : hash :=
  ⟨1, hash_int_shift_mult DEFAULT_ODD_CONSTANT, hash_int_key_cmp,
   fun i =>
     if i = bucketIdx (hash_int_shift_mult DEFAULT_ODD_CONSTANT 3 % U32) then
       ⟨[⟨3, 7, hash_int_shift_mult DEFAULT_ODD_CONSTANT 3 % U32⟩], 128⟩
     else ⟨[], 0⟩⟩

theorem C7_shrink_on_delete_witness :
    (hash_del c7_state 3 true).1 = 0 ∧
    ((hash_del c7_state 3 true).2.1.buckets (bucketOf c7_state 3)).total = 64 ∧
    (hash_del c7_state 3 false).1 = 0 ∧
    ((hash_del c7_state 3 false).2.1.buckets (bucketOf c7_state 3)).total =
      128 := by
  have := C7_shrink_on_delete c7_state 3 (bucketOf c7_state 3) 0
    (by decide) (by decide)
  refine ⟨this.1, ?_, this.2.2.2.1, ?_⟩
  · have h2 := this.2.1 (by decide)
    rw [h2.1]
    decide
  · rw [this.2.2.2.2]
    decide

/-! ### Claim C1 -/

theorem sumUsed_eq_allEntries_length (h : hash) :
    sumUsed h = (allEntries h).length := by
  simp only [sumUsed, allEntries, hash_bucket.used, List.length_flatMap]
  rfl

/-- Across all buckets, entries of a reachable table have pairwise
compare-distinct keys (inside a bucket by the uniqueness invariant;
across buckets because compare-equal keys hash alike and land in the
same bucket). -/
theorem allEntries_pairwise (h : hash) (hI : Inv h)
    (hcompat : ∀ a b, h.key_compare a b = 0 → h.hash_value a = h.hash_value b) :
    (allEntries h).Pairwise fun e1 e2 => h.key_compare e1.key e2.key ≠ 0 := by
  have key : ∀ {i1 i2 : Nat} {e1 e2 : hash_entry},
      e1 ∈ (h.buckets i1).entries → e2 ∈ (h.buckets i2).entries →
      h.key_compare e1.key e2.key = 0 → i1 = i2 := by
    intro i1 i2 e1 e2 he1 he2 hc
    obtain ⟨hv1, hb1⟩ := hI.ent_ok i1 e1 he1
    obtain ⟨hv2, hb2⟩ := hI.ent_ok i2 e2 he2
    have : e1.hashval = e2.hashval := by rw [hv1, hv2, hcompat _ _ hc]
    rw [← hb1, ← hb2, this]
  rw [allEntries]
  suffices hgen : ∀ n, ((List.range n).flatMap
      fun i => (h.buckets i).entries).Pairwise
      fun e1 e2 => h.key_compare e1.key e2.key ≠ 0 from hgen N_BUCKETS
  intro n
  induction n with
  | zero => simp
  | succ n ih =>
    rw [List.range_succ, List.flatMap_append]
    rw [List.pairwise_append]
    refine ⟨ih, ?_, ?_⟩
    · simp only [List.flatMap_cons, List.flatMap_nil, List.append_nil]
      refine List.Pairwise.imp_of_mem ?_ (hI.uniq n)
      intro e1 e2 he1 he2 hd hc
      obtain ⟨hv1, _⟩ := hI.ent_ok n e1 he1
      obtain ⟨hv2, _⟩ := hI.ent_ok n e2 he2
      exact hd ⟨by rw [hv1, hv2, hcompat _ _ hc], hc⟩
    · intro e1 he1 e2 he2 hc
      obtain ⟨i, hi, he1'⟩ := List.mem_flatMap.mp he1
      simp only [List.flatMap_cons, List.flatMap_nil, List.append_nil] at he2
      have := key he1' he2 hc
      rw [List.mem_range] at hi
      omega

/-- C1: after any sequence of add / add-unique / delete operations from
a fresh table (for a strategy whose compare-equality is symmetric,
transitive, and implies equal hashes — as both built-in strategies do),
`hash_get_count` equals the number of distinct keys currently present
under the table's compare function. -/
theorem C1_count_distinct_keys (hv : Nat → Nat) (cmp : Nat → Nat → Int)
    (ops : List op)
    (hsymm : ∀ a b, cmp a b = 0 → cmp b a = 0)
    (htrans : ∀ a b c, cmp a b = 0 → cmp b c = 0 → cmp a c = 0)
    (hcompat : ∀ a b, cmp a b = 0 → hv a = hv b) :
    hash_get_count (run hv cmp ops) =
      distinctCount (fun a b => cmp a b == 0)
        (presentKeys (run hv cmp ops)) := by
  have hI : Inv (run hv cmp ops) := Inv_run hv cmp ⟨hsymm, htrans⟩ ops
  obtain ⟨hfv, hfc⟩ := run_funs hv cmp ops
  have hpw : (presentKeys (run hv cmp ops)).Pairwise
      fun a b => (fun a b => cmp a b == 0) a b = false := by
    rw [presentKeys, List.pairwise_map]
    have := allEntries_pairwise (run hv cmp ops) hI
      (by rw [hfv, hfc]; exact hcompat)
    rw [hfc] at this
    refine this.imp ?_
    intro e1 e2 hne
    simpa using hne
  rw [distinctCount, dedupBy_eq_self _ _ hpw, presentKeys, List.length_map,
    ← sumUsed_eq_allEntries_length, hash_get_count, hI.inv0.count_eq]

/-- C1 witness: the generic theorem instantiated with the built-in
integer strategy at the default seed, on a concrete operation sequence
(count 2 = two distinct present keys). -/
theorem C1_count_distinct_keys_witness :
    hash_get_count (intRun [.add 1 10, .add 2 20, .add 1 30, .del 2,
        .add 7 70]) =
      distinctCount (fun a b => hash_int_key_cmp a b == 0)
        (presentKeys (intRun [.add 1 10, .add 2 20, .add 1 30, .del 2,
          .add 7 70])) :=
  C1_count_distinct_keys (hash_int_shift_mult DEFAULT_ODD_CONSTANT)
    hash_int_key_cmp _ CmpGood_int.1 CmpGood_int.2
    (hash_int_compat DEFAULT_ODD_CONSTANT)

/-! ### Claim C2 -/

theorem Inv0_step (h : hash) (o : op) (h0 : Inv0 h) : Inv0 (step h o) := by
  cases o with
  | add k v => exact Inv0_hash_add h k v true h0
  | addu k v => exact Inv0_hash_add_unique h k v true h0
  | del k => exact Inv0_hash_del h k true h0

theorem Inv0_run (hv : Nat → Nat) (cmp : Nat → Nat → Int) (ops : List op) :
    Inv0 (run hv cmp ops) := by
  rw [run]
  induction ops using List.reverseRecOn with
  | nil => exact (Inv_hash_new hv cmp).inv0
  | append_singleton ops o ih =>
    rw [List.foldl_append, List.foldl_cons, List.foldl_nil]
    exact Inv0_step _ o ih

/-- Behaviour of the bucket-scan loop of `hash_iter_next`. -/
theorem scanBuckets_spec (h : hash) :
    ∀ m i, N_BUCKETS - i ≤ m →
      i ≤ scanBuckets h i ∧
      (∀ b, i ≤ b → b < scanBuckets h i → (h.buckets b).used = 0) ∧
      (scanBuckets h i < N_BUCKETS → 0 < (h.buckets (scanBuckets h i)).used) ∧
      scanBuckets h i ≤ max i N_BUCKETS := by
  intro m
  induction m with
  | zero =>
    intro i hi
    rw [scanBuckets, dif_neg (by omega)]
    exact ⟨le_refl _, fun b hb1 hb2 => by omega, by omega, le_max_left _ _⟩
  | succ m ih =>
    intro i hi
    by_cases hlt : i < N_BUCKETS
    · by_cases hu : 0 < (h.buckets i).used
      · rw [scanBuckets, dif_pos hlt, if_pos hu]
        exact ⟨le_refl _, fun b hb1 hb2 => by omega, fun _ => hu,
          le_max_left _ _⟩
      · rw [scanBuckets, dif_pos hlt, if_neg hu]
        obtain ⟨ha, hb, hc, hd⟩ := ih (i + 1) (by omega)
        refine ⟨by omega, ?_, hc, by omega⟩
        intro b hb1 hb2
        rcases Nat.eq_or_lt_of_le hb1 with rfl | hb1'
        · omega
        · exact hb b (by omega) hb2
    · rw [scanBuckets, dif_neg hlt]
      exact ⟨le_refl _, fun b hb1 hb2 => by omega, by omega, le_max_left _ _⟩

/-- The pairs the iterator still has to deliver when it stands before
slot `j` of bucket `i`. -/
def restPairs (h : hash) (i j : Nat) : List (Nat × Nat) :=
  ((h.buckets i).entries.drop j ++
    (List.range' (i + 1) (N_BUCKETS - (i + 1))).flatMap
      fun b => (h.buckets b).entries).map fun e => (e.key, e.value)

theorem restPairs_cons (h : hash) (i j : Nat)
    (hj : j < (h.buckets i).entries.length) :
    restPairs h i j =
      (((h.buckets i).entries.getD j blank_entry).key,
       ((h.buckets i).entries.getD j blank_entry).value) ::
        restPairs h i (j + 1) := by
  rw [restPairs, restPairs, List.drop_eq_getElem_cons hj,
    List.getD_eq_getElem _ _ hj]
  rfl

theorem restPairs_end (h : hash) (i : Nat)
    (hscan : ∀ b, i + 1 ≤ b → b < N_BUCKETS → (h.buckets b).used = 0) :
    restPairs h i (h.buckets i).used = [] := by
  rw [restPairs, show (h.buckets i).used = (h.buckets i).entries.length from rfl,
    List.drop_length]
  have : ((List.range' (i + 1) (N_BUCKETS - (i + 1))).flatMap
      fun b => (h.buckets b).entries) = [] := by
    rw [List.flatMap_eq_nil_iff]
    intro b hb
    rw [List.mem_range'_1] at hb
    exact List.length_eq_zero.mp (hscan b hb.1 (by omega))
  rw [this]
  rfl

theorem restPairs_next_bucket (h : hash) (i nb : Nat)
    (hinb : i < nb) (hnb : nb < N_BUCKETS)
    (hempty : ∀ b, i + 1 ≤ b → b < nb → (h.buckets b).used = 0)
    (hne : 0 < (h.buckets nb).used) :
    restPairs h i (h.buckets i).used =
      (((h.buckets nb).entries.getD 0 blank_entry).key,
       ((h.buckets nb).entries.getD 0 blank_entry).value) ::
        restPairs h nb 1 := by
  rw [restPairs, show (h.buckets i).used = (h.buckets i).entries.length from rfl,
    List.drop_length]
  have h1 : i + 1 + (nb - (i + 1)) = nb := by omega
  have h2 : N_BUCKETS - nb + (nb - (i + 1)) = N_BUCKETS - (i + 1) := by omega
  have hsplit := List.range'_append_1 (i + 1) (nb - (i + 1)) (N_BUCKETS - nb)
  rw [h1, h2] at hsplit
  rw [← hsplit, List.flatMap_append]
  have hnil : ((List.range' (i + 1) (nb - (i + 1))).flatMap
      fun b => (h.buckets b).entries) = [] := by
    rw [List.flatMap_eq_nil_iff]
    intro b hb
    rw [List.mem_range'_1] at hb
    exact List.length_eq_zero.mp (hempty b hb.1 (by omega))
  rw [hnil]
  have h3 : N_BUCKETS - nb = (N_BUCKETS - (nb + 1)) + 1 := by omega
  rw [h3, List.range'_succ nb (N_BUCKETS - (nb + 1)) 1, List.flatMap_cons]
  have h0lt : 0 < (h.buckets nb).entries.length := hne
  have hdrop := List.drop_eq_getElem_cons h0lt
  rw [List.drop_zero] at hdrop
  rw [restPairs, List.getD_eq_getElem _ _ h0lt]
  conv_lhs => rw [hdrop]
  simp

theorem iter_collect_from (h : hash)
    (hbound : ∀ b, (h.buckets b).used < U32) :
    ∀ n i j, i < N_BUCKETS → j ≤ (h.buckets i).used →
      n = (restPairs h i j).length →
      iter_collect h (n + 1) ⟨i, (j : Int) - 1⟩ = restPairs h i j := by
  intro n
  induction n using Nat.strong_induction_on with
  | _ n ih =>
    intro i j hi hj hn
    have hcast : (((j : Int) - 1 + 1) % ((U32 : Nat) : Int)).toNat = j := by
      have h1 : (j : Int) - 1 + 1 = (j : Int) := by ring
      rw [h1, Int.emod_eq_of_lt (by positivity)
        (by exact_mod_cast lt_of_le_of_lt hj (hbound i))]
      simp
    by_cases hju : j < (h.buckets i).used
    · have hnext : hash_iter_next h ⟨i, (j : Int) - 1⟩ =
          (some (((h.buckets i).entries.getD j blank_entry).key,
                 ((h.buckets i).entries.getD j blank_entry).value),
           ⟨i, (j : Int) - 1 + 1⟩) := by
        rw [hash_iter_next]
        simp only [hcast]
        rw [if_neg (by omega)]
      have hrp := restPairs_cons h i j hju
      have hfuel : n = (restPairs h i (j + 1)).length + 1 := by
        rw [hn, hrp]
        rfl
      have hst : (⟨i, (j : Int) - 1 + 1⟩ : hash_iter) =
          ⟨i, ((j + 1 : Nat) : Int) - 1⟩ := by
        congr 1
        push_cast
        ring
      have hunfold : iter_collect h (n + 1) ⟨i, (j : Int) - 1⟩ =
          (((h.buckets i).entries.getD j blank_entry).key,
           ((h.buckets i).entries.getD j blank_entry).value) ::
            iter_collect h n ⟨i, (j : Int) - 1 + 1⟩ := by
        rw [iter_collect, hnext]
      rw [hunfold, hst, hrp]
      congr 1
      calc iter_collect h n ⟨i, ((j + 1 : Nat) : Int) - 1⟩
          = iter_collect h ((restPairs h i (j + 1)).length + 1)
            ⟨i, ((j + 1 : Nat) : Int) - 1⟩ := by rw [← hfuel]
        _ = restPairs h i (j + 1) := ih (restPairs h i (j + 1)).length
            (by omega) i (j + 1) hi hju rfl
    · have hjeq : j = (h.buckets i).used := by omega
      obtain ⟨hsa, hsb, hsc, hsd⟩ :=
        scanBuckets_spec h (N_BUCKETS - (i + 1)) (i + 1) (le_refl _)
      by_cases hex : scanBuckets h (i + 1) < N_BUCKETS
      · -- a later non-empty bucket exists
        have hnext : hash_iter_next h ⟨i, (j : Int) - 1⟩ =
            (some (((h.buckets (scanBuckets h (i + 1))).entries.getD 0
                blank_entry).key,
              ((h.buckets (scanBuckets h (i + 1))).entries.getD 0
                blank_entry).value),
             ⟨scanBuckets h (i + 1), 0⟩) := by
          rw [hash_iter_next]
          simp only [hcast]
          rw [if_pos (by omega), if_neg (by omega)]
        have hrp := restPairs_next_bucket h i (scanBuckets h (i + 1))
          (by omega) hex (fun b hb1 hb2 => hsb b hb1 hb2) (hsc hex)
        rw [← hjeq] at hrp
        have hfuel : n = (restPairs h (scanBuckets h (i + 1)) 1).length + 1 := by
          rw [hn, hrp]
          rfl
        have hunfold : iter_collect h (n + 1) ⟨i, (j : Int) - 1⟩ =
            (((h.buckets (scanBuckets h (i + 1))).entries.getD 0
                blank_entry).key,
             ((h.buckets (scanBuckets h (i + 1))).entries.getD 0
                blank_entry).value) ::
              iter_collect h n ⟨scanBuckets h (i + 1), 0⟩ := by
          rw [iter_collect, hnext]
        rw [hunfold, hrp]
        congr 1
        have hst : (⟨scanBuckets h (i + 1), 0⟩ : hash_iter) =
            ⟨scanBuckets h (i + 1), ((1 : Nat) : Int) - 1⟩ := by
          congr 1
        calc iter_collect h n ⟨scanBuckets h (i + 1), 0⟩
            = iter_collect h ((restPairs h (scanBuckets h (i + 1)) 1).length + 1)
              ⟨scanBuckets h (i + 1), ((1 : Nat) : Int) - 1⟩ := by
              rw [← hfuel, hst]
          _ = restPairs h (scanBuckets h (i + 1)) 1 :=
              ih (restPairs h (scanBuckets h (i + 1)) 1).length (by omega)
                (scanBuckets h (i + 1)) 1 hex (hsc hex) rfl
      · -- exhausted
        have hnext : hash_iter_next h ⟨i, (j : Int) - 1⟩ =
            (none, ⟨scanBuckets h (i + 1), 0⟩) := by
          rw [hash_iter_next]
          simp only [hcast]
          rw [if_pos (by omega), if_pos (by omega)]
        have hunfold : iter_collect h (n + 1) ⟨i, (j : Int) - 1⟩ = [] := by
          rw [iter_collect, hnext]
        rw [hunfold, hjeq,
          restPairs_end h i (fun b hb1 hb2 => hsb b hb1 (by omega))]

/-- C2: on every table reachable by a sequence of operations (with no
mutation during the walk), iterating from `hash_iter_init` with
`hash_iter_next` until exhaustion — `count + 1` calls suffice — yields
exactly the list of all live (key, value) pairs in bucket-then-slot
order: `count()` many pairs, each a currently present entry, none
repeated, none omitted. -/
theorem C2_iteration_complete (hv : Nat → Nat) (cmp : Nat → Nat → Int)
    (ops : List op) :
    iter_collect (run hv cmp ops) (hash_get_count (run hv cmp ops) + 1)
        hash_iter_init = allPairs (run hv cmp ops) ∧
    (allPairs (run hv cmp ops)).length = hash_get_count (run hv cmp ops) := by
  have h0 : Inv0 (run hv cmp ops) := Inv0_run hv cmp ops
  have hbound : ∀ b, ((run hv cmp ops).buckets b).used < U32 := by
    intro b
    have hb := h0.bound b
    have : UINT_MAX < U32 := by norm_num [UINT_MAX, U32]
    omega
  have hlen : (allPairs (run hv cmp ops)).length =
      hash_get_count (run hv cmp ops) := by
    rw [allPairs, List.length_map, ← sumUsed_eq_allEntries_length,
      hash_get_count, h0.count_eq]
  refine ⟨?_, hlen⟩
  have hrest : allPairs (run hv cmp ops) = restPairs (run hv cmp ops) 0 0 := by
    rw [allPairs, restPairs, allEntries, List.drop_zero, List.range_eq_range']
    have h512 : N_BUCKETS = (N_BUCKETS - 1) + 1 := by norm_num [N_BUCKETS]
    rw [h512, List.range'_succ 0 (N_BUCKETS - 1) 1]
    rw [List.flatMap_cons]
    rfl
  have hinit : (hash_iter_init : hash_iter) = ⟨0, ((0 : Nat) : Int) - 1⟩ := by
    rw [hash_iter_init]
    congr 1
  have hfuel : hash_get_count (run hv cmp ops) =
      (restPairs (run hv cmp ops) 0 0).length := by
    rw [← hrest, hlen]
  rw [hrest, hinit, hfuel]
  exact iter_collect_from (run hv cmp ops) hbound _ 0 0
    (by norm_num [N_BUCKETS]) (Nat.zero_le _) rfl

/-! ### Claim C3 -/

/-- The key scanned for is absent from its bucket. -/
def noMatch (h : hash) (key : Nat) : Prop := scanOf h key = none

/-- Operations that do not add a key comparing equal to `key`. -/
def avoids (cmp : Nat → Nat → Int) (key : Nat) : op → Bool
  | .add k2 _ => !(cmp key k2 == 0)
  | .addu k2 _ => !(cmp key k2 == 0)
  | .del _ => true

theorem setKV_getElem_self (es : List hash_entry) (j key v : Nat)
    (hj : j < es.length) (hj2 : j < (setKV es j key v).length) :
    (setKV es j key v)[j] = ⟨key, v, es[j].hashval⟩ := by
  simp only [setKV]
  have hgd : es.getD j blank_entry = es[j] :=
    List.getD_eq_getElem es blank_entry hj
  simp only [hgd]
  exact List.getElem_set_self _

theorem hash_find_of_scan (h : hash) (key j : Nat)
    (hscan : scanOf h key = some j) :
    hash_find h key = ((entriesOf h key).getD j blank_entry).value := by
  rw [hash_find, hash_find_entry_eq_scanOf, hscan]
  rfl

theorem hash_find_of_noMatch (h : hash) (key : Nat)
    (hnm : noMatch h key) : hash_find h key = 0 := by
  rw [hash_find, hash_find_entry_eq_scanOf, hnm]
  rfl

theorem entriesOf_withBucket_same (h : hash) (key : Nat)
    (es' : List hash_entry) (T c : Nat) :
    entriesOf (withBucket h (bucketOf h key) ⟨es', T⟩ c) key = es' := by
  rw [entriesOf]
  have hb : bucketOf (withBucket h (bucketOf h key) ⟨es', T⟩ c) key =
      bucketOf h key := rfl
  rw [hb]
  show (updateBucket h.buckets (bucketOf h key) ⟨es', T⟩
    (bucketOf h key)).entries = es'
  rw [updateBucket_same]

theorem scanOf_withBucket_same (h : hash) (key : Nat)
    (es' : List hash_entry) (T c : Nat) :
    scanOf (withBucket h (bucketOf h key) ⟨es', T⟩ c) key =
      findIndex h.key_compare key (h.hash_value key % U32) es' := by
  rw [scanOf, entriesOf_withBucket_same]
  rfl

theorem entriesOf_withBucket_other (h : hash) (key key2 : Nat)
    (es' : List hash_entry) (T c : Nat)
    (hne : bucketOf h key ≠ bucketOf h key2) :
    entriesOf (withBucket h (bucketOf h key2) ⟨es', T⟩ c) key =
      entriesOf h key := by
  rw [entriesOf, entriesOf]
  have hb : bucketOf (withBucket h (bucketOf h key2) ⟨es', T⟩ c) key =
      bucketOf h key := rfl
  rw [hb]
  show (updateBucket h.buckets (bucketOf h key2) ⟨es', T⟩
    (bucketOf h key)).entries = (h.buckets (bucketOf h key)).entries
  rw [updateBucket_other _ _ _ _ hne]

theorem scanOf_withBucket_other (h : hash) (key key2 : Nat)
    (es' : List hash_entry) (T c : Nat)
    (hne : bucketOf h key ≠ bucketOf h key2) :
    scanOf (withBucket h (bucketOf h key2) ⟨es', T⟩ c) key =
      scanOf h key := by
  rw [scanOf, scanOf, entriesOf_withBucket_other h key key2 es' T c hne]
  rfl

/-- After a successful `hash_add` of `key`, `hash_find key` returns the
value just stored (for a reflexive compare function). -/
theorem find_after_add (h : hash) (key v : Nat) (allocOk : Bool)
    (hrefl : h.key_compare key key = 0)
    (hok : (hash_add h key v allocOk).1 = 0) :
    hash_find ((hash_add h key v allocOk).2.1) key = v := by
  rcases hash_add_cases h key v allocOk with ⟨heq, _⟩ | ⟨heq, _⟩ |
    ⟨T, hT, ⟨j, hscan, heq⟩ | ⟨hscan, heq⟩⟩
  · rw [heq] at hok
    norm_num [EOVERFLOW] at hok
  · rw [heq] at hok
    norm_num [ENOMEM] at hok
  · obtain ⟨hj, hhv, _, hmin⟩ := findIndex_some _ _ _ _ _ hscan
    rw [heq]
    have hscan2 : scanOf ((0, withBucket h (bucketOf h key)
        ⟨setKV (entriesOf h key) j key v, T⟩ h.count,
        ([.free_value ((entriesOf h key).getD j blank_entry).value,
          .free_key ((entriesOf h key).getD j blank_entry).key] :
          List event)).2.1) key = some j := by
      rw [scanOf_withBucket_same]
      have hlen : j < (setKV (entriesOf h key) j key v).length := by
        simp [setKV]
        omega
      refine findIndex_eq_some _ _ _ _ j hlen ?_ ?_ ?_
      · rw [setKV_getElem_self _ _ _ _ hj hlen]
        exact hhv
      · rw [setKV_getElem_self _ _ _ _ hj hlen]
        exact hrefl
      · intro i hi hij
        have hi' : i < (entriesOf h key).length := by
          simp [setKV] at hi
          omega
        have : (setKV (entriesOf h key) j key v)[i] =
            (entriesOf h key)[i] :=
          List.getElem_set_ne (fun hc => by omega) _
        rw [this]
        exact hmin i hi' hij
    rw [hash_find_of_scan _ key j hscan2, entriesOf_withBucket_same]
    have := setKV_getD_self (entriesOf h key) j key v hj
    rw [this]
  · rw [heq]
    have hnone := (findIndex_none_iff _ _ _ _).mp hscan
    have hscan2 : scanOf ((0, withBucket h (bucketOf h key)
        ⟨entriesOf h key ++ [⟨key, v, h.hash_value key % U32⟩], T⟩
        (h.count + 1),
        ([.free_value 0, .free_key 0] : List event)).2.1) key =
        some (entriesOf h key).length := by
      rw [scanOf_withBucket_same]
      refine findIndex_eq_some _ _ _ _ _ (by simp) ?_ ?_ ?_
      · rw [List.getElem_append_right (le_refl _)]
        simp
      · rw [List.getElem_append_right (le_refl _)]
        simp [hrefl]
      · intro i hi hij
        simp only [List.length_append, List.length_singleton] at hi
        have hi' : i < (entriesOf h key).length := by omega
        rw [List.getElem_append_left hi']
        exact hnone _ (List.getElem_mem hi')
    rw [hash_find_of_scan _ key _ hscan2, entriesOf_withBucket_same]
    rw [List.getD_append_right _ _ _ _ (le_refl _)]
    simp

/-- A successful delete of `key` leaves no matching entry (for a
symmetric and transitive compare, using the per-bucket uniqueness
invariant). -/
theorem noMatch_after_del (h : hash) (key : Nat) (s : Bool)
    (hg : CmpGood h.key_compare) (hI : Inv h)
    (hok : (hash_del h key s).1 = 0) :
    noMatch ((hash_del h key s).2.1) key := by
  rcases hash_del_cases h key s with ⟨heq, _⟩ | ⟨j, hscan, heq⟩
  · rw [heq] at hok
    norm_num [ENOENT] at hok
  · obtain ⟨hj, hhv, hcmp, hmin⟩ := findIndex_some _ _ _ _ _ hscan
    rw [heq, noMatch]
    rw [scanOf_withBucket_same]
    rw [findIndex_none_iff]
    intro e he hcon
    obtain ⟨i, hi, hij, hie⟩ := List.mem_eraseIdx_iff_getElem.mp he
    rcases Nat.lt_or_ge i j with hlt | hge
    · exact hmin i hi hlt (by rw [hie]; exact hcon)
    · have hgt : j < i := by omega
      have huniq : ¬((entriesOf h key)[j].hashval =
            (entriesOf h key)[i].hashval ∧
          h.key_compare (entriesOf h key)[j].key
            (entriesOf h key)[i].key = 0) :=
        (List.pairwise_iff_getElem.mp (hI.uniq (bucketOf h key))) j i hj hi hgt
      refine huniq ⟨?_, ?_⟩
      · rw [hhv, hie]
        exact hcon.1
      · have h1 : h.key_compare (entriesOf h key)[j].key key = 0 :=
          hg.1 _ _ hcmp
        have h2 : h.key_compare key e.key = 0 := hcon.2
        have h3 := hg.2 _ _ _ h1 h2
        rw [← hie] at h3
        exact h3

/-- `noMatch` is preserved by any operation that does not add a key
comparing equal to `key`. -/
theorem noMatch_step (h : hash) (key : Nat) (o : op)
    (havoid : avoids h.key_compare key o = true)
    (hnm : noMatch h key) : noMatch (step h o) key := by
  have hinsert : ∀ (k2 v2 T c : Nat) (es' : List hash_entry),
      h.key_compare key k2 ≠ 0 →
      (∀ e ∈ es', e ∈ entriesOf h k2 ∨
        (e.key = k2 ∧ e.hashval = h.hash_value k2 % U32)) →
      noMatch (withBucket h (bucketOf h k2) ⟨es', T⟩ c) key := by
    intro k2 v2 T c es' hne hes
    by_cases hb : bucketOf h key = bucketOf h k2
    · rw [noMatch, ← hb, scanOf_withBucket_same, findIndex_none_iff]
      intro e he hcon
      rcases hes e he with hmem | ⟨hk, _⟩
      · have hold := (findIndex_none_iff _ _ _ _).mp hnm
        refine hold e ?_ hcon
        rw [entriesOf, ← hb] at hmem
        exact hmem
      · rw [hk] at hcon
        exact hne hcon.2
    · rw [noMatch, scanOf_withBucket_other h key k2 es' T c hb]
      exact hnm
  cases o with
  | add k2 v2 =>
    have hne : h.key_compare key k2 ≠ 0 := by
      simp [avoids] at havoid
      exact havoid
    rcases hash_add_cases h k2 v2 true with ⟨heq, _⟩ | ⟨heq, _⟩ |
      ⟨T, hT, ⟨j, hscan, heq⟩ | ⟨hscan, heq⟩⟩ <;>
      simp only [step, heq]
    · exact hnm
    · exact hnm
    · refine hinsert k2 v2 T h.count _ hne ?_
      intro e he
      rcases List.mem_or_eq_of_mem_set he with hmem | rfl
      · exact Or.inl hmem
      · obtain ⟨hj, hhv, _, _⟩ := findIndex_some _ _ _ _ _ hscan
        refine Or.inr ⟨rfl, ?_⟩
        show ((entriesOf h k2).getD j blank_entry).hashval = _
        rw [List.getD_eq_getElem _ _ hj, hhv]
    · refine hinsert k2 v2 T (h.count + 1) _ hne ?_
      intro e he
      rcases List.mem_append.mp he with hmem | hmem
      · exact Or.inl hmem
      · simp only [List.mem_singleton] at hmem
        subst hmem
        exact Or.inr ⟨rfl, rfl⟩
  | addu k2 v2 =>
    have hne : h.key_compare key k2 ≠ 0 := by
      simp [avoids] at havoid
      exact havoid
    rcases hash_add_unique_cases h k2 v2 true with ⟨heq, _⟩ | ⟨heq, _⟩ |
      ⟨T, hT, ⟨j, hscan, _, heq⟩ | ⟨j, hscan, _, _, heq⟩ | ⟨hscan, heq⟩⟩ <;>
      simp only [step, heq]
    · exact hnm
    · exact hnm
    · exact hinsert k2 v2 T h.count _ hne (fun e he => Or.inl he)
    · refine hinsert k2 v2 T h.count _ hne ?_
      intro e he
      rcases List.mem_or_eq_of_mem_set he with hmem | rfl
      · exact Or.inl hmem
      · obtain ⟨hj, hhv, _, _⟩ := findIndex_some _ _ _ _ _ hscan
        refine Or.inr ⟨rfl, ?_⟩
        show ((entriesOf h k2).getD j blank_entry).hashval = _
        rw [List.getD_eq_getElem _ _ hj, hhv]
    · refine hinsert k2 v2 T (h.count + 1) _ hne ?_
      intro e he
      rcases List.mem_append.mp he with hmem | hmem
      · exact Or.inl hmem
      · simp only [List.mem_singleton] at hmem
        subst hmem
        exact Or.inr ⟨rfl, rfl⟩
  | del k2 =>
    rcases hash_del_cases h k2 true with ⟨heq, _⟩ | ⟨j, hscan, heq⟩ <;>
      simp only [step, heq]
    · exact hnm
    · by_cases hb : bucketOf h key = bucketOf h k2
      · rw [noMatch, ← hb, scanOf_withBucket_same, findIndex_none_iff]
        intro e he hcon
        have hold := (findIndex_none_iff _ _ _ _).mp hnm
        have hmem : e ∈ entriesOf h k2 := List.mem_of_mem_eraseIdx he
        rw [entriesOf, ← hb] at hmem
        exact hold e hmem hcon
      · rw [noMatch, scanOf_withBucket_other h key k2 _ _ _ hb]
        exact hnm

theorem noMatch_foldl (key : Nat) (ops2 : List op) :
    ∀ (h : hash), (∀ o ∈ ops2, avoids h.key_compare key o = true) →
      noMatch h key → noMatch (ops2.foldl step h) key := by
  induction ops2 with
  | nil => exact fun h _ hnm => hnm
  | cons o os ih =>
    intro h havoid hnm
    rw [List.foldl_cons]
    refine ih (step h o) ?_ (noMatch_step h key o (havoid o (by simp)) hnm)
    intro o2 ho2
    rw [(step_funs h o).2]
    exact havoid o2 (by simp [ho2])

/-- C3: (a) after a successful delete of `key` — and any further
operations none of which adds a key comparing equal to `key` —
`hash_find key` returns not-found (`NULL`); (b) right after a successful
`hash_add key v`, `hash_find key` returns `v`, the most recently added
value for that key.  (Compare-equality is assumed reflexive, symmetric
and transitive, as for both built-in strategies.) -/
theorem C3_find_after_del_add (hv : Nat → Nat) (cmp : Nat → Nat → Int)
    (ops : List op) (key v : Nat) (laterOps : List op)
    (hrefl : ∀ a, cmp a a = 0)
    (hsymm : ∀ a b, cmp a b = 0 → cmp b a = 0)
    (htrans : ∀ a b c, cmp a b = 0 → cmp b c = 0 → cmp a c = 0)
    (hlater : ∀ o ∈ laterOps, avoids cmp key o = true) :
    ((hash_del (run hv cmp ops) key true).1 = 0 →
      hash_find (laterOps.foldl step
        (hash_del (run hv cmp ops) key true).2.1) key = 0) ∧
    (∀ allocOk, (hash_add (run hv cmp ops) key v allocOk).1 = 0 →
      hash_find ((hash_add (run hv cmp ops) key v allocOk).2.1) key = v) := by
  obtain ⟨hfv, hfc⟩ := run_funs hv cmp ops
  constructor
  · intro hok
    have hg : CmpGood (run hv cmp ops).key_compare := by
      rw [hfc]
      exact ⟨hsymm, htrans⟩
    have hI : Inv (run hv cmp ops) := Inv_run hv cmp ⟨hsymm, htrans⟩ ops
    have hnm := noMatch_after_del (run hv cmp ops) key true hg hI hok
    have hdelc : (hash_del (run hv cmp ops) key true).2.1.key_compare =
        cmp := by
      have : (hash_del (run hv cmp ops) key true).2.1 =
          step (run hv cmp ops) (.del key) := rfl
      rw [this, (step_funs _ _).2, hfc]
    refine hash_find_of_noMatch _ key (noMatch_foldl key laterOps _ ?_ hnm)
    intro o ho
    rw [hdelc]
    exact hlater o ho
  · intro allocOk hok
    refine find_after_add (run hv cmp ops) key v allocOk ?_ hok
    rw [hfc]
    exact hrefl key

/-- C3 witness: with the integer strategy, after add(1,10), add(1,30),
delete of 1 followed by an unrelated add leaves find(1) = 0; and find
right after add(2,20) yields 20. -/
theorem C3_find_after_del_add_witness :
    ((hash_del (intRun [.add 1 10, .add 1 30]) 1 true).1 = 0 →
      hash_find ([op.add 2 40].foldl step
        (hash_del (intRun [.add 1 10, .add 1 30]) 1 true).2.1) 1 = 0) ∧
    (∀ allocOk, (hash_add (intRun [.add 1 10, .add 1 30]) 1 20 allocOk).1 = 0 →
      hash_find ((hash_add (intRun [.add 1 10, .add 1 30]) 1 20
        allocOk).2.1) 1 = 20) :=
  C3_find_after_del_add (hash_int_shift_mult DEFAULT_ODD_CONSTANT)
    hash_int_key_cmp [.add 1 10, .add 1 30] 1 20 [.add 2 40]
    (fun a => (hash_int_key_cmp_eq_zero a a).mpr rfl)
    CmpGood_int.1 CmpGood_int.2 (by decide)

end LwanHash
